import Mathlib

/-!
Verification of the reachability-based pruning pass
(`filter_apis_by_following_edges_from_allowlist` in
`src/engine/src/conversion/analysis/gc.rs`).

The pass receives the full list of discovered `Api` nodes plus an
allowlist oracle, seeds a FIFO work queue with the typenames of all
allowlisted nodes, groups the nodes into an identity-keyed index
(a `HashMap<TypeName, Vec<Api>>`), and repeatedly dequeues an identity:
if unvisited and present in the index, its whole group is moved to the
output and the dependency identities of every node of the group are
appended to the back of the queue.

The `HashMap` / `HashSet` of the source are only ever queried by key and
never iterated, so they are embedded as an association list
(`lookupIdx` / `lookupRemove`) and a membership list.
-/

set_option maxHeartbeats 1000000

namespace Gc

/-- Modelled from the spec: the node type `Api<T>` (defined in
`conversion/api.rs`, which is not part of the sources here).  Per §3 of the
spec a node carries an *identity* (`typename`, a canonical mapping key), an
*allowlist identity* (`typename_for_allowlist`, possibly different, used only
to query the allowlist oracle), an ordered sequence of dependency-edge
identities (`deps`), and an opaque analysis payload. -/
structure Api (T : Type) where
  typename : String
  typenameForAllowlist : String
  deps : List String
  analysis : T
deriving DecidableEq, Repr

/-- The identity-keyed index `by_typename : HashMap<TypeName, Vec<Api<T>>>`,
embedded as an association list (the map is only queried and removed by key,
never iterated). -/
abbrev Index (T : Type) := List (String × List (Api T))

/-- Key lookup in the index (`HashMap::get` semantics on an association
list: first matching key wins). -/
def lookupIdx {T : Type} : Index T → String → Option (List (Api T))
  | [], _ => none
  | (k, g) :: rest, t => if k = t then some g else lookupIdx rest t

/-- `HashMap::remove`: look up the key and simultaneously delete its bucket,
returning the bucket and the remaining index. -/
def lookupRemove {T : Type} : Index T → String → Option (List (Api T) × Index T)
  | [], _ => none
  | (k, g) :: rest, t =>
    if k = t then some (g, rest)
    else
      match lookupRemove rest t with
      | some (g2, rest2) => some (g2, (k, g) :: rest2)
      | none => none

/-- One step of `by_typename.entry(tn).or_default().push(api)`: append the
node to its identity bucket, creating the bucket if absent. -/
def insertIndex {T : Type} : Index T → Api T → Index T
  | [], a => [(a.typename, [a])]
  | (k, g) :: rest, a =>
    if k = a.typename then (k, g ++ [a]) :: rest else (k, g) :: insertIndex rest a

/-- The `for api in apis.drain(..)` loop that partitions the input into
identity-keyed groups. -/
def buildIndex {T : Type} (apis : List (Api T)) : Index T :=
  List.foldl insertIndex [] apis

/-- Structural description of a successful `lookupRemove`: the index splits
around the removed bucket, whose key is the requested one, and no earlier
bucket has that key. -/
theorem lookupRemove_split {T : Type} (idx : Index T) (t : String) :
    ∀ (g : List (Api T)) (idx2 : Index T),
      lookupRemove idx t = some (g, idx2) →
        ∃ pre post, idx = pre ++ (t, g) :: post ∧ idx2 = pre ++ post ∧
          ∀ p ∈ pre, p.1 ≠ t := by
  induction idx with
  | nil => intro g idx2 h; simp [lookupRemove] at h
  | cons p rest ih =>
    obtain ⟨k, gr⟩ := p
    intro g idx2 h
    simp only [lookupRemove] at h
    split at h
    next hk =>
      cases h
      subst hk
      exact ⟨[], rest, rfl, rfl, by simp⟩
    next hk =>
      cases hrec : lookupRemove rest t with
      | none => rw [hrec] at h; cases h
      | some pr =>
        obtain ⟨g2, rest2⟩ := pr
        rw [hrec] at h
        change some (g2, (k, gr) :: rest2) = some (g, idx2) at h
        simp only [Option.some.injEq, Prod.mk.injEq] at h
        obtain ⟨rfl, rfl⟩ := h
        obtain ⟨pre, post, h1, h2, h3⟩ := ih g2 rest2 hrec
        refine ⟨(k, gr) :: pre, post, ?_, ?_, ?_⟩
        · simp [h1]
        · simp [h2]
        · intro q hq
          rcases List.mem_cons.mp hq with hq1 | hq1
          · simp [hq1, hk]
          · exact h3 q hq1

theorem lookupRemove_length {T : Type} (idx : Index T) (t : String)
    (g : List (Api T)) (idx2 : Index T)
    (h : lookupRemove idx t = some (g, idx2)) : idx2.length + 1 = idx.length := by
  obtain ⟨pre, post, h1, h2, _⟩ := lookupRemove_split idx t g idx2 h
  subst h1 h2
  simp
  omega

/-- The `while !todos.is_empty()` traversal loop of
`filter_apis_by_following_edges_from_allowlist`: `todos` is the FIFO work
queue, `index` the remaining identity groups, `done` the visited set and
`output` the accumulator. -/
def loop {T : Type} (todos : List String) (index : Index T) (done : List String)
    (output : List (Api T)) : List (Api T) :=
  match todos with
  | [] => output
  | todo :: rest =>
    if todo ∈ done then loop rest index done output
    else
      match h : lookupRemove index todo with
      | some (theseApis, index2) =>
          loop (rest ++ theseApis.flatMap (fun a => a.deps)) index2 (todo :: done)
            (output ++ theseApis)
      | none => loop rest index (todo :: done) output
termination_by (index.length, todos.length)
decreasing_by
  · exact Prod.Lex.right _ (Nat.lt_succ_self _)
  · exact Prod.Lex.left _ _ (by have := lookupRemove_length index todo theseApis index2 h; omega)
  · exact Prod.Lex.right _ (Nat.lt_succ_self _)

/-- The seed-selection pass: typenames of all nodes whose allowlist identity
is accepted by the oracle (`apis.iter().filter(...).map(Api::typename)`). -/
def seedNames {T : Type} (apis : List (Api T)) (allow : String → Bool) : List String :=
  (apis.filter (fun api => allow api.typenameForAllowlist)).map (fun api => api.typename)

/-- The whole pass `filter_apis_by_following_edges_from_allowlist`.  The
allowlist oracle `type_database.is_on_allowlist(tnforal.to_cpp_name())` is
embedded as the boolean function `allow` applied to the node's allowlist
identity. -/
def filter_apis_by_following_edges_from_allowlist {T : Type}
    (apis : List (Api T)) (allow : String → Bool) : List (Api T) :=
  loop (seedNames apis allow) (buildIndex apis) [] []

theorem loop_nil {T : Type} (index : Index T) (done : List String) (output : List (Api T)) :
    loop [] index done output = output := by
  simp [loop]

theorem loop_skip {T : Type} (todo : String) (rest : List String) (index : Index T)
    (done : List String) (output : List (Api T)) (h : todo ∈ done) :
    loop (todo :: rest) index done output = loop rest index done output := by
  rw [loop]
  simp [h]

theorem loop_found {T : Type} (todo : String) (rest : List String) (index : Index T)
    (done : List String) (output : List (Api T)) (g : List (Api T)) (index2 : Index T)
    (h : todo ∉ done) (h2 : lookupRemove index todo = some (g, index2)) :
    loop (todo :: rest) index done output
      = loop (rest ++ g.flatMap (fun a => a.deps)) index2 (todo :: done) (output ++ g) := by
  rw [loop]
  simp only [h, if_neg, not_false_eq_true]
  split
  next heq => rw [h2] at heq; cases heq; rfl
  next heq => rw [h2] at heq; cases heq

theorem loop_miss {T : Type} (todo : String) (rest : List String) (index : Index T)
    (done : List String) (output : List (Api T))
    (h : todo ∉ done) (h2 : lookupRemove index todo = none) :
    loop (todo :: rest) index done output = loop rest index (todo :: done) output := by
  rw [loop]
  simp only [h, if_neg, not_false_eq_true]
  split
  next heq => rw [h2] at heq; cases heq
  next _ => rfl

/-- Fuel-indexed version of the traversal loop, used to state termination:
identical body, but recursion is on an explicit fuel counter and exhausted
fuel with a non-empty queue returns `none`. -/
def loopFuel {T : Type} : Nat → List String → Index T → List String → List (Api T) →
    Option (List (Api T))
  | _, [], _, _, output => some output
  | 0, _ :: _, _, _, _ => none
  | fuel + 1, todo :: rest, index, done, output =>
    if todo ∈ done then loopFuel fuel rest index done output
    else
      match lookupRemove index todo with
      | some (theseApis, index2) =>
          loopFuel fuel (rest ++ theseApis.flatMap (fun a => a.deps)) index2 (todo :: done)
            (output ++ theseApis)
      | none => loopFuel fuel rest index (todo :: done) output

/-- Total number of dependency edges carried by a node group. -/
def depsLen {T : Type} (g : List (Api T)) : Nat :=
  (g.map (fun a => a.deps.length)).sum

/-- Total number of dependency edges stored in the index. -/
def totalDeps {T : Type} (index : Index T) : Nat :=
  (index.map (fun p => depsLen p.2)).sum

theorem lookupRemove_totalDeps {T : Type} (idx : Index T) (t : String)
    (g : List (Api T)) (idx2 : Index T)
    (h : lookupRemove idx t = some (g, idx2)) :
    totalDeps idx = depsLen g + totalDeps idx2 := by
  obtain ⟨pre, post, h1, h2, _⟩ := lookupRemove_split idx t g idx2 h
  subst h1 h2
  simp [totalDeps]
  omega

/-- The exact amount of fuel needed by the loop: one unit per queue entry
plus one unit per dependency edge still stored in the index. -/
theorem loopFuel_spec {T : Type} :
    ∀ (todos : List String) (index : Index T) (done : List String) (output : List (Api T)),
      loopFuel (todos.length + totalDeps index) todos index done output
        = some (loop todos index done output) := by
  intro todos index done output
  induction todos, index, done, output using loop.induct with
  | case1 index done output => simp [loopFuel, loop_nil]
  | case2 index done output todo rest hmem ih =>
    rw [loop_skip _ _ _ _ _ hmem]
    have harith : (todo :: rest).length + totalDeps index
        = (rest.length + totalDeps index) + 1 := by
      simp only [List.length_cons]
      omega
    rw [harith]
    simpa [loopFuel, hmem] using ih
  | case3 index done output todo rest hmem theseApis index2 hlr ih =>
    rw [loop_found _ _ _ _ _ _ _ hmem hlr]
    have hdeps := lookupRemove_totalDeps index todo theseApis index2 hlr
    have hflat : (theseApis.flatMap (fun a => a.deps)).length = depsLen theseApis := by
      simp only [depsLen, List.length_flatMap]
      rfl
    have harith : (todo :: rest).length + totalDeps index
        = ((rest ++ theseApis.flatMap (fun a => a.deps)).length + totalDeps index2) + 1 := by
      simp only [List.length_cons, List.length_append, hflat, hdeps]
      omega
    rw [harith]
    simpa [loopFuel, hmem, hlr] using ih
  | case4 index done output todo rest hmem hlr ih =>
    rw [loop_miss _ _ _ _ _ hmem hlr]
    have harith : (todo :: rest).length + totalDeps index
        = (rest.length + totalDeps index) + 1 := by
      simp only [List.length_cons]
      omega
    rw [harith]
    simpa [loopFuel, hmem, hlr] using ih

/-- Helper to evaluate the filter on concrete inputs: whatever the fueled
loop computes with exact fuel is the filter result. -/
theorem filter_eval {T : Type} (apis : List (Api T)) (allow : String → Bool)
    (out : List (Api T))
    (h : loopFuel ((seedNames apis allow).length + totalDeps (buildIndex apis))
          (seedNames apis allow) (buildIndex apis) [] [] = some out) :
    filter_apis_by_following_edges_from_allowlist apis allow = out := by
  have h2 := loopFuel_spec (seedNames apis allow) (buildIndex apis) [] ([] : List (Api T))
  rw [h] at h2
  exact (Option.some.inj h2).symm

/-- The keys of the index. -/
def keysIdx {T : Type} (idx : Index T) : List String :=
  idx.map Prod.fst

/-- The identity group of `t` inside the input sequence: all nodes whose
typename is `t`, in input order. -/
def groupOf {T : Type} (apis : List (Api T)) (t : String) : List (Api T) :=
  apis.filter (fun a => a.typename == t)

theorem lookupIdx_append {T : Type} (l1 l2 : Index T) (t : String) :
    lookupIdx (l1 ++ l2) t
      = match lookupIdx l1 t with
        | some g => some g
        | none => lookupIdx l2 t := by
  induction l1 with
  | nil => simp [lookupIdx]
  | cons p rest ih =>
    obtain ⟨k, g⟩ := p
    by_cases hk : k = t
    · simp [lookupIdx, hk]
    · simp [lookupIdx, hk, ih]

theorem lookupIdx_eq_none_iff {T : Type} (idx : Index T) (t : String) :
    lookupIdx idx t = none ↔ t ∉ keysIdx idx := by
  induction idx with
  | nil => simp [lookupIdx, keysIdx]
  | cons p rest ih =>
    obtain ⟨k, g⟩ := p
    by_cases hk : k = t
    · simp [lookupIdx, keysIdx, hk]
    · simp [lookupIdx, keysIdx, hk, ih]
      intro h
      exact fun hc => hk hc.symm

theorem lookupRemove_eq_none_iff {T : Type} (idx : Index T) (t : String) :
    lookupRemove idx t = none ↔ lookupIdx idx t = none := by
  induction idx with
  | nil => simp [lookupRemove, lookupIdx]
  | cons p rest ih =>
    obtain ⟨k, g⟩ := p
    by_cases hk : k = t
    · simp [lookupRemove, lookupIdx, hk]
    · simp only [lookupRemove, lookupIdx, hk, if_false, if_neg]
      constructor
      · intro h
        cases hrec : lookupRemove rest t with
        | none => exact ih.mp hrec
        | some pr => rw [hrec] at h; obtain ⟨g2, r2⟩ := pr; cases h
      · intro h
        cases hrec : lookupRemove rest t with
        | none => rfl
        | some pr =>
          obtain ⟨g2, r2⟩ := pr
          rw [← ih] at h
          rw [hrec] at h
          cases h

theorem lookupRemove_lookupIdx {T : Type} (idx : Index T) (t : String)
    (g : List (Api T)) (idx2 : Index T)
    (h : lookupRemove idx t = some (g, idx2)) : lookupIdx idx t = some g := by
  obtain ⟨pre, post, h1, _, h3⟩ := lookupRemove_split idx t g idx2 h
  subst h1
  rw [lookupIdx_append]
  have hpre : lookupIdx pre t = none := by
    rw [lookupIdx_eq_none_iff]
    intro hc
    simp only [keysIdx, List.mem_map] at hc
    obtain ⟨p, hp, hpt⟩ := hc
    exact h3 p hp hpt
  rw [hpre]
  simp [lookupIdx]

theorem keysIdx_append {T : Type} (l1 l2 : Index T) :
    keysIdx (l1 ++ l2) = keysIdx l1 ++ keysIdx l2 := by
  simp [keysIdx]

theorem lookupRemove_nodup {T : Type} (idx : Index T) (t : String)
    (g : List (Api T)) (idx2 : Index T)
    (h : lookupRemove idx t = some (g, idx2)) (hnd : (keysIdx idx).Nodup) :
    (keysIdx idx2).Nodup := by
  obtain ⟨pre, post, h1, h2, _⟩ := lookupRemove_split idx t g idx2 h
  subst h1 h2
  simp only [keysIdx, List.map_append, List.map_cons] at hnd ⊢
  exact List.Nodup.sublist
    ((List.sublist_cons_self t (List.map Prod.fst post)).append_left _) hnd

theorem lookupRemove_lookupIdx_self {T : Type} (idx : Index T) (t : String)
    (g : List (Api T)) (idx2 : Index T)
    (h : lookupRemove idx t = some (g, idx2)) (hnd : (keysIdx idx).Nodup) :
    lookupIdx idx2 t = none := by
  obtain ⟨pre, post, h1, h2, h3⟩ := lookupRemove_split idx t g idx2 h
  subst h1 h2
  rw [lookupIdx_eq_none_iff, keysIdx_append]
  rw [keysIdx_append] at hnd
  simp only [keysIdx, List.map_cons] at hnd
  intro hc
  rcases List.mem_append.mp hc with hc1 | hc1
  · simp only [keysIdx, List.mem_map] at hc1
    obtain ⟨p, hp, hpt⟩ := hc1
    exact h3 p hp hpt
  · have := List.Nodup.of_append_right hnd
    rw [List.nodup_cons] at this
    exact this.1 hc1

theorem lookupRemove_lookupIdx_other {T : Type} (idx : Index T) (t : String)
    (g : List (Api T)) (idx2 : Index T) (u : String)
    (h : lookupRemove idx t = some (g, idx2)) (hu : u ≠ t) :
    lookupIdx idx2 u = lookupIdx idx u := by
  obtain ⟨pre, post, h1, h2, h3⟩ := lookupRemove_split idx t g idx2 h
  subst h1 h2
  rw [lookupIdx_append, lookupIdx_append]
  cases hpre : lookupIdx pre u with
  | some gp => rfl
  | none =>
    show lookupIdx post u = lookupIdx ((t, g) :: post) u
    have htu : ¬ t = u := fun hc => hu hc.symm
    simp [lookupIdx, htu]

theorem lookupIdx_insertIndex {T : Type} (idx : Index T) (a : Api T) (t : String) :
    lookupIdx (insertIndex idx a) t
      = if a.typename = t then some ((lookupIdx idx t).getD [] ++ [a])
        else lookupIdx idx t := by
  induction idx with
  | nil =>
    by_cases ht : a.typename = t <;> simp [insertIndex, lookupIdx, ht]
  | cons p rest ih =>
    obtain ⟨k, g⟩ := p
    by_cases hk : k = a.typename
    · subst hk
      by_cases ht : a.typename = t
      · subst ht
        simp [insertIndex, lookupIdx]
      · simp [insertIndex, lookupIdx, ht]
    · by_cases ht : k = t
      · subst ht
        have hat : ¬ a.typename = k := fun hc => hk hc.symm
        have hcons : insertIndex ((k, g) :: rest) a = (k, g) :: insertIndex rest a := by
          simp [insertIndex, hk]
        rw [hcons]
        simp [lookupIdx, hat]
      · have hcons : insertIndex ((k, g) :: rest) a = (k, g) :: insertIndex rest a := by
          simp [insertIndex, hk]
        rw [hcons]
        simp only [lookupIdx, if_neg ht]
        rw [ih]

theorem keysIdx_insertIndex {T : Type} (idx : Index T) (a : Api T) :
    keysIdx (insertIndex idx a)
      = if a.typename ∈ keysIdx idx then keysIdx idx
        else keysIdx idx ++ [a.typename] := by
  induction idx with
  | nil => simp [insertIndex, keysIdx]
  | cons p rest ih =>
    obtain ⟨k, g⟩ := p
    by_cases hk : k = a.typename
    · subst hk
      simp [insertIndex, keysIdx]
    · have hak : ¬ a.typename = k := fun hc => hk hc.symm
      have hcons : insertIndex ((k, g) :: rest) a = (k, g) :: insertIndex rest a := by
        simp [insertIndex, hk]
      rw [hcons]
      show k :: keysIdx (insertIndex rest a) = _
      rw [ih]
      by_cases hm : a.typename ∈ keysIdx rest
      · simp only [keysIdx] at hm
        simp [keysIdx, hm, hak]
      · simp only [keysIdx] at hm
        simp [keysIdx, hm, hak]

theorem nodup_insertIndex {T : Type} (idx : Index T) (a : Api T)
    (h : (keysIdx idx).Nodup) : (keysIdx (insertIndex idx a)).Nodup := by
  rw [keysIdx_insertIndex]
  by_cases hm : a.typename ∈ keysIdx idx
  · simpa [hm] using h
  · simp only [if_neg hm]
    simp [List.nodup_append, h, hm]

theorem lookupIdx_foldl_insert {T : Type} (apis : List (Api T)) :
    ∀ (idx : Index T) (t : String),
      lookupIdx (List.foldl insertIndex idx apis) t
        = if (groupOf apis t).isEmpty then lookupIdx idx t
          else some ((lookupIdx idx t).getD [] ++ groupOf apis t) := by
  induction apis with
  | nil => intro idx t; simp [groupOf]
  | cons a rest ih =>
    intro idx t
    rw [List.foldl_cons, ih]
    by_cases ht : a.typename = t
    · have hcons : groupOf (a :: rest) t = a :: groupOf rest t := by
        simp [groupOf, List.filter_cons, ht]
      rw [hcons]
      rw [lookupIdx_insertIndex]
      simp only [if_pos ht]
      by_cases hemp : (groupOf rest t).isEmpty
      · have hnil := List.isEmpty_iff.mp hemp
        simp [hemp, hnil]
      · simp only [hemp, if_false, List.isEmpty_cons, Option.getD_some]
        rw [List.append_assoc]
        simp
    · have hcons : groupOf (a :: rest) t = groupOf rest t := by
        simp only [groupOf, List.filter_cons]
        have : (a.typename == t) = false := by simp [ht]
        simp [this]
      rw [hcons, lookupIdx_insertIndex]
      simp [ht]

theorem lookupIdx_buildIndex {T : Type} (apis : List (Api T)) (t : String) :
    lookupIdx (buildIndex apis) t
      = if (groupOf apis t).isEmpty then none else some (groupOf apis t) := by
  rw [buildIndex, lookupIdx_foldl_insert]
  simp [lookupIdx]

theorem nodup_buildIndex {T : Type} (apis : List (Api T)) :
    (keysIdx (buildIndex apis)).Nodup := by
  rw [buildIndex]
  have : ∀ (idx : Index T), (keysIdx idx).Nodup →
      (keysIdx (List.foldl insertIndex idx apis)).Nodup := by
    induction apis with
    | nil => intro idx h; simpa using h
    | cons a rest ih =>
      intro idx h
      rw [List.foldl_cons]
      exact ih _ (nodup_insertIndex idx a h)
  exact this [] (by simp [keysIdx])

/-- Invariant tying the evolving index to the original input list: keys are distinct
and every bucket is exactly the (nonempty) input group with that key. -/
def SubIndex {T : Type} (apis : List (Api T)) (index : Index T) : Prop :=
  (keysIdx index).Nodup ∧
    ∀ t g, lookupIdx index t = some g → g = groupOf apis t ∧ g ≠ []

theorem SubIndex_buildIndex {T : Type} (apis : List (Api T)) :
    SubIndex apis (buildIndex apis) := by
  refine ⟨nodup_buildIndex apis, ?_⟩
  intro t g h
  rw [lookupIdx_buildIndex] at h
  by_cases hemp : (groupOf apis t).isEmpty
  · simp [hemp] at h
  · simp only [hemp, if_false] at h
    cases h
    exact ⟨rfl, by simpa [List.isEmpty_iff] using hemp⟩

theorem SubIndex_remove {T : Type} (apis : List (Api T)) (index : Index T)
    (t : String) (g : List (Api T)) (index2 : Index T)
    (hs : SubIndex apis index) (h : lookupRemove index t = some (g, index2)) :
    SubIndex apis index2 := by
  obtain ⟨hnd, hg⟩ := hs
  refine ⟨lookupRemove_nodup index t g index2 h hnd, ?_⟩
  intro u gu hu
  by_cases hut : u = t
  · subst hut
    rw [lookupRemove_lookupIdx_self index u g index2 h hnd] at hu
    cases hu
  · rw [lookupRemove_lookupIdx_other index t g index2 u h hut] at hu
    exact hg u gu hu

/-- Abstract view of the traversal: the sequence of (identity, group) pairs
extracted from the index, in extraction order.  It mirrors `loop` exactly but
records which bucket was removed at each productive step instead of
accumulating the output nodes. -/
def loopK {T : Type} (todos : List String) (index : Index T) (done : List String) :
    List (String × List (Api T)) :=
  match todos with
  | [] => []
  | todo :: rest =>
    if todo ∈ done then loopK rest index done
    else
      match h : lookupRemove index todo with
      | some (theseApis, index2) =>
          (todo, theseApis) :: loopK (rest ++ theseApis.flatMap (fun a => a.deps)) index2
            (todo :: done)
      | none => loopK rest index (todo :: done)
termination_by (index.length, todos.length)
decreasing_by
  · exact Prod.Lex.right _ (Nat.lt_succ_self _)
  · exact Prod.Lex.left _ _ (by
      have := lookupRemove_length index todo theseApis index2 h; omega)
  · exact Prod.Lex.right _ (Nat.lt_succ_self _)

theorem loopK_nil {T : Type} (index : Index T) (done : List String) :
    loopK ([] : List String) index done = [] := by
  simp [loopK]

theorem loopK_skip {T : Type} (todo : String) (rest : List String) (index : Index T)
    (done : List String) (h : todo ∈ done) :
    loopK (todo :: rest) index done = loopK rest index done := by
  rw [loopK]
  simp [h]

theorem loopK_found {T : Type} (todo : String) (rest : List String) (index : Index T)
    (done : List String) (g : List (Api T)) (index2 : Index T)
    (h : todo ∉ done) (h2 : lookupRemove index todo = some (g, index2)) :
    loopK (todo :: rest) index done
      = (todo, g) :: loopK (rest ++ g.flatMap (fun a => a.deps)) index2 (todo :: done) := by
  rw [loopK]
  simp only [h, if_neg, not_false_eq_true]
  split
  next heq => rw [h2] at heq; cases heq; rfl
  next heq => rw [h2] at heq; cases heq

theorem loopK_miss {T : Type} (todo : String) (rest : List String) (index : Index T)
    (done : List String) (h : todo ∉ done) (h2 : lookupRemove index todo = none) :
    loopK (todo :: rest) index done = loopK rest index (todo :: done) := by
  rw [loopK]
  simp only [h, if_neg, not_false_eq_true]
  split
  next heq => rw [h2] at heq; cases heq
  next _ => rfl

/-- The loop's accumulator factors out. -/
theorem loop_output_append {T : Type} :
    ∀ (todos : List String) (index : Index T) (done : List String) (output : List (Api T)),
      loop todos index done output = output ++ loop todos index done []
  | [], index, done, output => by simp [loop_nil]
  | todo :: rest, index, done, output => by
    by_cases hmem : todo ∈ done
    · rw [loop_skip _ _ _ _ _ hmem, loop_skip _ _ _ _ _ hmem]
      exact loop_output_append rest index done output
    · cases hlr : lookupRemove index todo with
      | some pr =>
        obtain ⟨theseApis, index2⟩ := pr
        have hlen : index2.length < index.length := by
          have := lookupRemove_length index todo theseApis index2 hlr
          omega
        rw [loop_found _ _ _ _ _ _ _ hmem hlr, loop_found _ _ _ _ _ _ _ hmem hlr]
        rw [loop_output_append _ index2 _ (output ++ theseApis),
            loop_output_append _ index2 _ ([] ++ theseApis)]
        simp
      | none =>
        rw [loop_miss _ _ _ _ _ hmem hlr, loop_miss _ _ _ _ _ hmem hlr]
        exact loop_output_append rest index (todo :: done) output
termination_by todos index done output => (index.length, todos.length)
decreasing_by
  all_goals
    first
    | exact Prod.Lex.right _ (Nat.lt_succ_self _)
    | exact Prod.Lex.left _ _ (by omega)

/-- The loop output is the concatenation of the extracted groups. -/
theorem loop_eq_loopK {T : Type} (todos : List String) (index : Index T)
    (done : List String) :
    loop todos index done [] = (loopK todos index done).flatMap (fun p => p.2) := by
  induction todos, index, done using loopK.induct with
  | case1 index done => simp [loop_nil, loopK_nil]
  | case2 index done todo rest hmem ih =>
    rw [loop_skip _ _ _ _ _ hmem, loopK_skip _ _ _ _ hmem]
    exact ih
  | case3 index done todo rest hmem theseApis index2 hlr ih =>
    rw [loop_found _ _ _ _ _ _ _ hmem hlr, loopK_found _ _ _ _ _ _ hmem hlr]
    rw [loop_output_append]
    simp only [List.nil_append, List.flatMap_cons]
    rw [ih]
  | case4 index done todo rest hmem hlr ih =>
    rw [loop_miss _ _ _ _ _ hmem hlr, loopK_miss _ _ _ _ hmem hlr]
    exact ih

/-- Every extracted group is exactly the corresponding (nonempty) input
group. -/
theorem loopK_groups {T : Type} (apis : List (Api T)) (todos : List String)
    (index : Index T) (done : List String) :
    SubIndex apis index →
      ∀ p ∈ loopK todos index done, p.2 = groupOf apis p.1 ∧ p.2 ≠ [] := by
  induction todos, index, done using loopK.induct with
  | case1 index done =>
    intro _ p hp
    rw [loopK_nil] at hp
    cases hp
  | case2 index done todo rest hmem ih =>
    intro hs p hp
    rw [loopK_skip _ _ _ _ hmem] at hp
    exact ih hs p hp
  | case3 index done todo rest hmem theseApis index2 hlr ih =>
    intro hs p hp
    rw [loopK_found _ _ _ _ _ _ hmem hlr] at hp
    rcases List.mem_cons.mp hp with hp1 | hp1
    · subst hp1
      exact hs.2 todo theseApis (lookupRemove_lookupIdx index todo theseApis index2 hlr)
    · exact ih (SubIndex_remove apis index todo theseApis index2 hs hlr) p hp1
  | case4 index done todo rest hmem hlr ih =>
    intro hs p hp
    rw [loopK_miss _ _ _ _ hmem hlr] at hp
    exact ih hs p hp

/-- The extracted keys are distinct and disjoint from the visited set. -/
theorem loopK_keys_nodup {T : Type} (todos : List String) (index : Index T)
    (done : List String) :
    ((loopK todos index done).map Prod.fst).Nodup ∧
      ∀ k ∈ (loopK todos index done).map Prod.fst, k ∉ done := by
  induction todos, index, done using loopK.induct with
  | case1 index done =>
    rw [loopK_nil]
    exact ⟨List.nodup_nil, by simp⟩
  | case2 index done todo rest hmem ih =>
    rw [loopK_skip _ _ _ _ hmem]
    exact ih
  | case3 index done todo rest hmem theseApis index2 hlr ih =>
    rw [loopK_found _ _ _ _ _ _ hmem hlr]
    obtain ⟨ihn, ihd⟩ := ih
    constructor
    · rw [List.map_cons, List.nodup_cons]
      refine ⟨?_, ihn⟩
      intro hc
      have := ihd todo hc
      simp at this
    · intro k hk
      rw [List.map_cons] at hk
      rcases List.mem_cons.mp hk with hk1 | hk1
      · subst hk1; exact hmem
      · intro hc
        exact ihd k hk1 (List.mem_cons_of_mem _ hc)
  | case4 index done todo rest hmem hlr ih =>
    rw [loopK_miss _ _ _ _ hmem hlr]
    obtain ⟨ihn, ihd⟩ := ih
    refine ⟨ihn, ?_⟩
    intro k hk hc
    exact ihd k hk (List.mem_cons_of_mem _ hc)

/-- Every identity sitting in the work queue ends up visited: it is already
visited, or it gets extracted, or it has no bucket in the index. -/
theorem loopK_todo_processed {T : Type} (todos : List String) (index : Index T)
    (done : List String) :
    ∀ t ∈ todos, t ∈ done ∨ t ∈ (loopK todos index done).map Prod.fst ∨
      lookupIdx index t = none := by
  induction todos, index, done using loopK.induct with
  | case1 index done => intro t ht; cases ht
  | case2 index done todo rest hmem ih =>
    intro t ht
    rw [loopK_skip _ _ _ _ hmem]
    rcases List.mem_cons.mp ht with ht1 | ht1
    · subst ht1; exact Or.inl hmem
    · exact ih t ht1
  | case3 index done todo rest hmem theseApis index2 hlr ih =>
    intro t ht
    rw [loopK_found _ _ _ _ _ _ hmem hlr]
    by_cases htt : t = todo
    · subst htt
      exact Or.inr (Or.inl (by simp))
    · rcases List.mem_cons.mp ht with ht1 | ht1
      · exact absurd ht1 htt
      · rcases ih t (List.mem_append_left _ ht1) with h1 | h1 | h1
        · rcases List.mem_cons.mp h1 with h2 | h2
          · exact absurd h2 htt
          · exact Or.inl h2
        · exact Or.inr (Or.inl (by simp [List.mem_cons]; right; simpa using h1))
        · rw [lookupRemove_lookupIdx_other index todo theseApis index2 t hlr htt] at h1
          exact Or.inr (Or.inr h1)
  | case4 index done todo rest hmem hlr ih =>
    intro t ht
    rw [loopK_miss _ _ _ _ hmem hlr]
    by_cases htt : t = todo
    · subst htt
      exact Or.inr (Or.inr ((lookupRemove_eq_none_iff index t).mp hlr))
    · rcases List.mem_cons.mp ht with ht1 | ht1
      · exact absurd ht1 htt
      · rcases ih t ht1 with h1 | h1 | h1
        · rcases List.mem_cons.mp h1 with h2 | h2
          · exact absurd h2 htt
          · exact Or.inl h2
        · exact Or.inr (Or.inl h1)
        · exact Or.inr (Or.inr h1)

/-- Closure of the extraction: every dependency edge of every extracted node
leads to an extracted identity or to an identity with no bucket. -/
theorem loopK_closure {T : Type} (todos : List String) (index : Index T)
    (done : List String) :
    (keysIdx index).Nodup →
      (∀ x ∈ done, lookupIdx index x = none) →
      ∀ p ∈ loopK todos index done, ∀ a ∈ p.2, ∀ d ∈ a.deps,
        d ∈ (loopK todos index done).map Prod.fst ∨ lookupIdx index d = none := by
  induction todos, index, done using loopK.induct with
  | case1 index done =>
    intro _ _ p hp
    rw [loopK_nil] at hp
    cases hp
  | case2 index done todo rest hmem ih =>
    intro hnd hdone p hp
    rw [loopK_skip _ _ _ _ hmem] at hp ⊢
    exact ih hnd hdone p hp
  | case3 index done todo rest hmem theseApis index2 hlr ih =>
    intro hnd hdone p hp a ha d hd
    have hnd2 := lookupRemove_nodup index todo theseApis index2 hlr hnd
    have hdone2 : ∀ x ∈ todo :: done, lookupIdx index2 x = none := by
      intro x hx
      rcases List.mem_cons.mp hx with hx1 | hx1
      · subst hx1
        exact lookupRemove_lookupIdx_self index x theseApis index2 hlr hnd
      · by_cases hxt : x = todo
        · subst hxt
          exact lookupRemove_lookupIdx_self index x theseApis index2 hlr hnd
        · rw [lookupRemove_lookupIdx_other index todo theseApis index2 x hlr hxt]
          exact hdone x hx1
    have hlift : ∀ u, u ∈ (loopK (rest ++ theseApis.flatMap (fun b => b.deps)) index2
          (todo :: done)).map Prod.fst ∨ lookupIdx index2 u = none →
        u ∈ (loopK (todo :: rest) index done).map Prod.fst ∨ lookupIdx index u = none := by
      intro u hu
      rw [loopK_found _ _ _ _ _ _ hmem hlr]
      by_cases hut : u = todo
      · subst hut
        exact Or.inl (by simp)
      · rcases hu with hu1 | hu1
        · exact Or.inl (by simp only [List.map_cons, List.mem_cons]; right; exact hu1)
        · rw [lookupRemove_lookupIdx_other index todo theseApis index2 u hlr hut] at hu1
          exact Or.inr hu1
    rw [loopK_found _ _ _ _ _ _ hmem hlr] at hp
    rcases List.mem_cons.mp hp with hp1 | hp1
    · subst hp1
      have hdq : d ∈ rest ++ theseApis.flatMap (fun b => b.deps) := by
        apply List.mem_append_right
        rw [List.mem_flatMap]
        exact ⟨a, ha, hd⟩
      rcases loopK_todo_processed _ index2 (todo :: done) d hdq with h1 | h1 | h1
      · rcases List.mem_cons.mp h1 with h2 | h2
        · subst h2
          rw [loopK_found _ _ _ _ _ _ hmem hlr]
          exact Or.inl (by simp)
        · exact Or.inr (hdone d h2)
      · exact hlift d (Or.inl h1)
      · exact hlift d (Or.inr h1)
    · exact hlift d (ih hnd2 hdone2 p hp1 a ha d hd)
  | case4 index done todo rest hmem hlr ih =>
    intro hnd hdone p hp a ha d hd
    have hdone2 : ∀ x ∈ todo :: done, lookupIdx index x = none := by
      intro x hx
      rcases List.mem_cons.mp hx with hx1 | hx1
      · subst hx1
        exact (lookupRemove_eq_none_iff index x).mp hlr
      · exact hdone x hx1
    rw [loopK_miss _ _ _ _ hmem hlr] at hp ⊢
    exact ih hnd hdone2 p hp a ha d hd

/-- Reachability over the identity graph: an identity is reachable when it
is the typename of an allowlisted node, or when it is a dependency of a node
whose typename is reachable. -/
inductive Reach {T : Type} (apis : List (Api T)) (allow : String → Bool) : String → Prop where
  | seed : ∀ {k : String}, k ∈ seedNames apis allow → Reach apis allow k
  | step : ∀ {k d : String} (a : Api T), Reach apis allow k → a ∈ apis →
      a.typename = k → d ∈ a.deps → Reach apis allow d

/-- Soundness of the extraction: when every queued identity is reachable,
every extracted identity is reachable. -/
theorem loopK_sound {T : Type} (apis : List (Api T)) (allow : String → Bool)
    (todos : List String) (index : Index T) (done : List String) :
    SubIndex apis index →
      (∀ t ∈ todos, Reach apis allow t) →
      ∀ k ∈ (loopK todos index done).map Prod.fst, Reach apis allow k := by
  induction todos, index, done using loopK.induct with
  | case1 index done =>
    intro _ _ k hk
    rw [loopK_nil] at hk
    cases hk
  | case2 index done todo rest hmem ih =>
    intro hs ht k hk
    rw [loopK_skip _ _ _ _ hmem] at hk
    exact ih hs (fun t h => ht t (List.mem_cons_of_mem _ h)) k hk
  | case3 index done todo rest hmem theseApis index2 hlr ih =>
    intro hs ht k hk
    have hgrp : theseApis = groupOf apis todo ∧ theseApis ≠ [] :=
      hs.2 todo theseApis (lookupRemove_lookupIdx index todo theseApis index2 hlr)
    have hq2 : ∀ t ∈ rest ++ theseApis.flatMap (fun b => b.deps), Reach apis allow t := by
      intro t hq
      rcases List.mem_append.mp hq with hq1 | hq1
      · exact ht t (List.mem_cons_of_mem _ hq1)
      · rw [List.mem_flatMap] at hq1
        obtain ⟨a, ha, hd⟩ := hq1
        have hmem2 : a ∈ apis ∧ a.typename = todo := by
          have := hgrp.1 ▸ ha
          rw [groupOf, List.mem_filter] at this
          exact ⟨this.1, by simpa using this.2⟩
        exact Reach.step a (ht todo (List.mem_cons_self _ _)) hmem2.1 hmem2.2 hd
    rw [loopK_found _ _ _ _ _ _ hmem hlr, List.map_cons] at hk
    rcases List.mem_cons.mp hk with hk1 | hk1
    · subst hk1
      exact ht k (List.mem_cons_self _ _)
    · exact ih (SubIndex_remove apis index todo theseApis index2 hs hlr) hq2 k hk1
  | case4 index done todo rest hmem hlr ih =>
    intro hs ht k hk
    rw [loopK_miss _ _ _ _ hmem hlr] at hk
    exact ih hs (fun t h => ht t (List.mem_cons_of_mem _ h)) k hk

/-- The pairs extracted by the full run of the pass, in extraction order. -/
def reachedPairs {T : Type} (apis : List (Api T)) (allow : String → Bool) :
    List (String × List (Api T)) :=
  loopK (seedNames apis allow) (buildIndex apis) []

/-- The identities extracted by the full run, in extraction order. -/
def reachedKeys {T : Type} (apis : List (Api T)) (allow : String → Bool) : List String :=
  (reachedPairs apis allow).map Prod.fst

/-- An identity which is reachable and names at least one input node is
extracted by the run. -/
theorem reach_mem_reachedKeys {T : Type} (apis : List (Api T)) (allow : String → Bool)
    (k : String) (hr : Reach apis allow k) (hg : ∃ a ∈ apis, a.typename = k) :
    k ∈ reachedKeys apis allow := by
  induction hr with
  | seed hs =>
    rename_i k2
    have hlook : lookupIdx (buildIndex apis) k2 ≠ none := by
      rw [lookupIdx_buildIndex]
      obtain ⟨a, ha, hat⟩ := hg
      have : a ∈ groupOf apis k2 := by
        rw [groupOf, List.mem_filter]
        exact ⟨ha, by simp [hat]⟩
      have hne : ¬ (groupOf apis k2).isEmpty := by
        rw [List.isEmpty_iff]
        intro hc
        rw [hc] at this
        cases this
      simp [hne]
    rcases loopK_todo_processed (seedNames apis allow) (buildIndex apis) [] k2 hs
      with h1 | h1 | h1
    · cases h1
    · exact h1
    · exact absurd h1 hlook
  | step a hr2 hmem htn hdep ih =>
    rename_i k2 d
    have hk2 : k2 ∈ reachedKeys apis allow := ih ⟨a, hmem, htn⟩
    rw [reachedKeys, List.mem_map] at hk2
    obtain ⟨p, hp, hpk⟩ := hk2
    have hgrp := loopK_groups apis (seedNames apis allow) (buildIndex apis) []
      (SubIndex_buildIndex apis) p hp
    have ha : a ∈ p.2 := by
      rw [hgrp.1, hpk, groupOf, List.mem_filter]
      exact ⟨hmem, by simp [htn]⟩
    have hclose := loopK_closure (seedNames apis allow) (buildIndex apis) []
      (nodup_buildIndex apis) (by simp) p hp a ha d hdep
    rcases hclose with h1 | h1
    · exact h1
    · rw [lookupIdx_buildIndex] at h1
      obtain ⟨b, hb, hbt⟩ := hg
      have : b ∈ groupOf apis d := by
        rw [groupOf, List.mem_filter]
        exact ⟨hb, by simp [hbt]⟩
      by_cases hemp : (groupOf apis d).isEmpty
      · rw [List.isEmpty_iff] at hemp
        rw [hemp] at this
        cases this
      · simp [hemp] at h1

theorem flatMap_snd_eq_keys {T : Type} (l : List (String × List (Api T)))
    (f : String → List (Api T)) (h : ∀ p ∈ l, p.2 = f p.1) :
    l.flatMap (fun p => p.2) = (l.map Prod.fst).flatMap f := by
  induction l with
  | nil => simp
  | cons p rest ih =>
    simp only [List.flatMap_cons, List.map_cons]
    rw [h p (List.mem_cons_self _ _), ih (fun q hq => h q (List.mem_cons_of_mem _ hq))]

/-- Master characterization: the output of the pass is the concatenation of
the input identity groups of the extracted identities, in extraction
order. -/
theorem filter_eq_flatMap {T : Type} (apis : List (Api T)) (allow : String → Bool) :
    filter_apis_by_following_edges_from_allowlist apis allow
      = (reachedKeys apis allow).flatMap (fun k => groupOf apis k) := by
  rw [filter_apis_by_following_edges_from_allowlist, loop_eq_loopK]
  rw [reachedKeys, reachedPairs]
  exact flatMap_snd_eq_keys _ _ (fun p hp =>
    (loopK_groups apis (seedNames apis allow) (buildIndex apis) []
      (SubIndex_buildIndex apis) p hp).1)

theorem reachedKeys_nodup {T : Type} (apis : List (Api T)) (allow : String → Bool) :
    (reachedKeys apis allow).Nodup :=
  (loopK_keys_nodup (seedNames apis allow) (buildIndex apis) []).1

theorem reachedKeys_reach {T : Type} (apis : List (Api T)) (allow : String → Bool) :
    ∀ k ∈ reachedKeys apis allow, Reach apis allow k :=
  loopK_sound apis allow (seedNames apis allow) (buildIndex apis) []
    (SubIndex_buildIndex apis) (fun t ht => Reach.seed ht)

theorem mem_groupOf {T : Type} (apis : List (Api T)) (k : String) (a : Api T) :
    a ∈ groupOf apis k ↔ a ∈ apis ∧ a.typename = k := by
  rw [groupOf, List.mem_filter]
  simp

/-- Membership characterization of the output: a node survives the pass
exactly when it is an input node whose identity is reachable from the
allowlist seeds. -/
theorem mem_filter_iff {T : Type} (apis : List (Api T)) (allow : String → Bool)
    (a : Api T) :
    a ∈ filter_apis_by_following_edges_from_allowlist apis allow
      ↔ a ∈ apis ∧ Reach apis allow a.typename := by
  rw [filter_eq_flatMap, List.mem_flatMap]
  constructor
  · rintro ⟨k, hk, ha⟩
    rw [mem_groupOf] at ha
    refine ⟨ha.1, ?_⟩
    rw [ha.2]
    exact reachedKeys_reach apis allow k hk
  · rintro ⟨ha, hr⟩
    refine ⟨a.typename, ?_, ?_⟩
    · exact reach_mem_reachedKeys apis allow a.typename hr ⟨a, ha, rfl⟩
    · rw [mem_groupOf]
      exact ⟨ha, rfl⟩

/-- A chain of identities in which each consecutive pair is connected by a
dependency edge of some input node. -/
def Chain {T : Type} (apis : List (Api T)) : List String → Prop
  | [] => True
  | [_] => True
  | k :: k2 :: rest =>
      (∃ a ∈ apis, a.typename = k ∧ k2 ∈ a.deps) ∧ Chain apis (k2 :: rest)

theorem chain_append {T : Type} (apis : List (Api T)) :
    ∀ (l : List String) (k d : String), Chain apis l → l.getLast? = some k →
      (∃ a ∈ apis, a.typename = k ∧ d ∈ a.deps) → Chain apis (l ++ [d])
  | [], k, d => by intro _ hlast _; cases hlast
  | [x], k, d => by
    intro _ hlast hedge
    have hk : x = k := by
      simp [List.getLast?] at hlast
      exact hlast
    subst hk
    exact ⟨hedge, trivial⟩
  | x :: y :: rest, k, d => by
    intro hc hlast hedge
    have hlast2 : (y :: rest).getLast? = some k := by
      rw [List.getLast?_cons_cons] at hlast
      exact hlast
    exact ⟨hc.1, chain_append apis (y :: rest) k d hc.2 hlast2 hedge⟩

theorem length_flatMap_groupOf {T : Type} :
    ∀ (apis : List (Api T)) (keys : List String), keys.Nodup →
      (keys.flatMap (fun k => groupOf apis k)).length ≤ apis.length := by
  intro apis
  induction apis with
  | nil =>
    intro keys _
    have h0 : ∀ ks : List String,
        ks.flatMap (fun k => groupOf ([] : List (Api T)) k) = [] := by
      intro ks
      induction ks with
      | nil => rfl
      | cons k ks2 ih2 =>
        rw [List.flatMap_cons, ih2]
        rfl
    simp [h0 keys]
  | cons a rest ih =>
    intro keys hnd
    have hsplit : ∀ ks : List String,
        (ks.flatMap (fun k => groupOf (a :: rest) k)).length
          = (ks.flatMap (fun k => groupOf rest k)).length
            + ks.countP (fun k => a.typename == k) := by
      intro ks
      induction ks with
      | nil => simp
      | cons k ks2 ih2 =>
        simp only [List.flatMap_cons, List.length_append, ih2, List.countP_cons]
        have hg : (groupOf (a :: rest) k).length
            = (groupOf rest k).length + (if a.typename == k then 1 else 0) := by
          rw [groupOf, groupOf, List.filter_cons]
          by_cases hak : a.typename == k
          · simp [hak]
          · simp [hak]
        rw [hg]
        omega
    rw [hsplit keys]
    have hcnt : keys.countP (fun k => a.typename == k) ≤ 1 := by
      have heq : (fun k => a.typename == k) = (fun k => k == a.typename) := by
        funext k
        by_cases h : k = a.typename
        · simp [h]
        · have h2 : ¬ a.typename = k := fun hc => h hc.symm
          simp [h, h2]
      rw [heq, ← List.count_eq_countP]
      exact List.nodup_iff_count_le_one.mp hnd a.typename
    have := ih keys hnd
    simp only [List.length_cons]
    omega

/-- Spec scenario 1: a chain `TypeA -> TypeB` plus an unreachable `TypeC`. -/
def exScenario1 : List (Api Unit) :=
  [⟨"TypeA", "TypeA", ["TypeB"], ()⟩, ⟨"TypeB", "TypeB", [], ()⟩,
   ⟨"TypeC", "TypeC", [], ()⟩]

def allowTypeA : String → Bool := fun s => s == "TypeA"

/-- Spec scenario 2: a self-referential dependency cycle. -/
def exCyclic : List (Api Unit) :=
  [⟨"Fn", "Fn", ["StructX"], ()⟩, ⟨"StructX", "StructX", ["StructX"], ()⟩]

def allowFn : String → Bool := fun s => s == "Fn"

/-- Spec scenario 3: a dangling dependency edge to an unknown identity. -/
def exUnknown : List (Api Unit) :=
  [⟨"X", "X", ["Unknown"], ()⟩]

def allowX : String → Bool := fun s => s == "X"

/-- Spec scenario 5: two nodes sharing identity `Z`, plus a resolvable `W`. -/
def exShared : List (Api Unit) :=
  [⟨"Z", "Z", ["W"], ()⟩, ⟨"Z", "Z", [], ()⟩, ⟨"W", "W", [], ()⟩]

def allowZ : String → Bool := fun s => s == "Z"

theorem exScenario1_eval :
    filter_apis_by_following_edges_from_allowlist exScenario1 allowTypeA
      = [⟨"TypeA", "TypeA", ["TypeB"], ()⟩, ⟨"TypeB", "TypeB", [], ()⟩] := by
  apply filter_eval
  rfl

theorem exCyclic_eval :
    filter_apis_by_following_edges_from_allowlist exCyclic allowFn
      = [⟨"Fn", "Fn", ["StructX"], ()⟩, ⟨"StructX", "StructX", ["StructX"], ()⟩] := by
  apply filter_eval
  rfl

theorem exUnknown_eval :
    filter_apis_by_following_edges_from_allowlist exUnknown allowX
      = [⟨"X", "X", ["Unknown"], ()⟩] := by
  apply filter_eval
  rfl

theorem exShared_eval :
    filter_apis_by_following_edges_from_allowlist exShared allowZ
      = [⟨"Z", "Z", ["W"], ()⟩, ⟨"Z", "Z", [], ()⟩, ⟨"W", "W", [], ()⟩] := by
  apply filter_eval
  rfl

/-- Ordering counterexample input: the group of identity `X` occurs first in
the input, but the first allowlisted node in the input has identity `Y`; the
first `X` node is not allowlisted because its allowlist identity differs. -/
def exOrder : List (Api Unit) :=
  [⟨"X", "NotAllowed", [], ()⟩, ⟨"Y", "Y", [], ()⟩, ⟨"X", "X", [], ()⟩]

def allowYX : String → Bool := fun s => s == "Y" || s == "X"

theorem exOrder_eval :
    filter_apis_by_following_edges_from_allowlist exOrder allowYX
      = [⟨"Y", "Y", [], ()⟩, ⟨"X", "NotAllowed", [], ()⟩, ⟨"X", "X", [], ()⟩] := by
  apply filter_eval
  rfl

theorem mem_of_lookupIdx {T : Type} :
    ∀ (idx : Index T) (k : String) (g : List (Api T)),
      lookupIdx idx k = some g → (k, g) ∈ idx
  | [], k, g => by intro h; cases h
  | (k2, g2) :: rest, k, g => by
    intro h
    rw [lookupIdx] at h
    by_cases hk : k2 = k
    · rw [if_pos hk] at h
      cases h
      subst hk
      exact List.mem_cons_self _ _
    · rw [if_neg hk] at h
      exact List.mem_cons_of_mem _ (mem_of_lookupIdx rest k g h)

theorem lookupIdx_of_mem_nodup {T : Type} :
    ∀ (idx : Index T) (k : String) (g : List (Api T)),
      (k, g) ∈ idx → (keysIdx idx).Nodup → lookupIdx idx k = some g
  | [], k, g => by intro h _; cases h
  | (k2, g2) :: rest, k, g => by
    intro h hnd
    rcases List.mem_cons.mp h with h1 | h1
    · cases h1
      rw [lookupIdx, if_pos rfl]
    · have hk : ¬ k2 = k := by
        intro hc
        subst hc
        have : k2 ∈ keysIdx rest := by
          rw [keysIdx, List.mem_map]
          exact ⟨(k2, g), h1, rfl⟩
        have hnd2 : k2 ∉ keysIdx rest := by
          have := hnd
          rw [show keysIdx ((k2, g2) :: rest) = k2 :: keysIdx rest from rfl,
            List.nodup_cons] at this
          exact this.1
        exact hnd2 this
      rw [lookupIdx, if_neg hk]
      have hnd2 : (keysIdx rest).Nodup := by
        have := hnd
        rw [show keysIdx ((k2, g2) :: rest) = k2 :: keysIdx rest from rfl,
          List.nodup_cons] at this
        exact this.2
      exact lookupIdx_of_mem_nodup rest k g h1 hnd2

theorem lookupIdx_perm {T : Type} (index1 index2 : Index T) (k : String)
    (hperm : index1.Perm index2) (hnd : (keysIdx index1).Nodup) :
    lookupIdx index1 k = lookupIdx index2 k := by
  have hnd2 : (keysIdx index2).Nodup := by
    rw [keysIdx]
    exact (hperm.map Prod.fst).nodup_iff.mp (by rw [keysIdx] at hnd; exact hnd)
  cases h1 : lookupIdx index1 k with
  | some g =>
    exact (lookupIdx_of_mem_nodup index2 k g
      (hperm.mem_iff.mp (mem_of_lookupIdx index1 k g h1)) hnd2).symm
  | none =>
    rw [lookupIdx_eq_none_iff] at h1
    have : k ∉ keysIdx index2 := by
      intro hc
      apply h1
      rw [keysIdx] at hc ⊢
      exact (hperm.map Prod.fst).mem_iff.mpr hc
    rw [eq_comm, lookupIdx_eq_none_iff]
    exact this

theorem lookupRemove_perm {T : Type} (index1 index2 : Index T) (todo : String)
    (g : List (Api T)) (r1 : Index T)
    (hperm : index1.Perm index2) (hnd : (keysIdx index1).Nodup)
    (hlr : lookupRemove index1 todo = some (g, r1)) :
    ∃ r2 : Index T, lookupRemove index2 todo = some (g, r2) ∧ r1.Perm r2 := by
  have hl1 : lookupIdx index1 todo = some g := lookupRemove_lookupIdx _ _ _ _ hlr
  have hl2 : lookupIdx index2 todo = some g := by
    rw [← lookupIdx_perm index1 index2 todo hperm hnd]
    exact hl1
  cases hlr2 : lookupRemove index2 todo with
  | none =>
    rw [lookupRemove_eq_none_iff] at hlr2
    rw [hlr2] at hl2
    cases hl2
  | some pr =>
    obtain ⟨g2, r2⟩ := pr
    have hg2 : g2 = g := by
      have hx := lookupRemove_lookupIdx index2 todo g2 r2 hlr2
      rw [hx] at hl2
      exact Option.some.inj hl2
    subst hg2
    refine ⟨r2, rfl, ?_⟩
    obtain ⟨pre1, post1, he1, hr1, _⟩ := lookupRemove_split index1 todo g2 r1 hlr
    obtain ⟨pre2, post2, he2, hr2, _⟩ := lookupRemove_split index2 todo g2 r2 hlr2
    subst he1 hr1 he2 hr2
    have h1 : ((todo, g2) :: (pre1 ++ post1)).Perm ((todo, g2) :: (pre2 ++ post2)) :=
      (List.perm_middle.symm.trans hperm).trans List.perm_middle
    exact h1.cons_inv

/-- The traversal is insensitive to the order in which the index stores its
buckets: any permutation of the bucket list (with the same per-key contents)
produces the same output.  This captures determinism with respect to hash
iteration order: the map is only queried by key. -/
theorem loop_perm {T : Type} :
    ∀ (todos : List String) (index1 index2 : Index T) (done : List String)
      (output : List (Api T)), index1.Perm index2 → (keysIdx index1).Nodup →
      loop todos index1 done output = loop todos index2 done output
  | [], index1, index2, done, output => by
    intro _ _
    rw [loop_nil, loop_nil]
  | todo :: rest, index1, index2, done, output => by
    intro hperm hnd
    by_cases hmem : todo ∈ done
    · rw [loop_skip _ _ _ _ _ hmem, loop_skip _ _ _ _ _ hmem]
      exact loop_perm rest index1 index2 done output hperm hnd
    · cases hlr : lookupRemove index1 todo with
      | some pr =>
        obtain ⟨g, r1⟩ := pr
        have hlen : r1.length < index1.length := by
          have := lookupRemove_length index1 todo g r1 hlr
          omega
        obtain ⟨r2, hlr2, hperm2⟩ := lookupRemove_perm index1 index2 todo g r1 hperm hnd hlr
        rw [loop_found _ _ _ _ _ _ _ hmem hlr, loop_found _ _ _ _ _ _ _ hmem hlr2]
        exact loop_perm _ r1 r2 _ _ hperm2 (lookupRemove_nodup index1 todo g r1 hlr hnd)
      | none =>
        have hlr2 : lookupRemove index2 todo = none := by
          rw [lookupRemove_eq_none_iff] at hlr ⊢
          rw [← lookupIdx_perm index1 index2 todo hperm hnd]
          exact hlr
        rw [loop_miss _ _ _ _ _ hmem hlr, loop_miss _ _ _ _ _ hmem hlr2]
        exact loop_perm rest index1 index2 (todo :: done) output hperm hnd
termination_by todos index1 => (index1.length, todos.length)
decreasing_by
  all_goals
    first
    | exact Prod.Lex.right _ (Nat.lt_succ_self _)
    | exact Prod.Lex.left _ _ (by omega)

/-- First-occurrence normalization of a work queue: drops entries already in
the visited set and later duplicates. -/
def dedupFrom (done : List String) : List String → List String
  | [] => []
  | t :: rest => if t ∈ done then dedupFrom done rest else t :: dedupFrom (t :: done) rest

theorem dedupFrom_congr :
    ∀ (todos : List String) (done1 done2 : List String),
      (∀ x, x ∈ done1 ↔ x ∈ done2) → dedupFrom done1 todos = dedupFrom done2 todos
  | [], _, _ => by intro _; rfl
  | t :: rest, done1, done2 => by
    intro h
    by_cases hm : t ∈ done1
    · rw [dedupFrom, dedupFrom, if_pos hm, if_pos ((h t).mp hm)]
      exact dedupFrom_congr rest done1 done2 h
    · rw [dedupFrom, dedupFrom, if_neg hm, if_neg (fun hc => hm ((h t).mpr hc))]
      refine congrArg (t :: ·) (dedupFrom_congr rest (t :: done1) (t :: done2) ?_)
      intro x
      simp only [List.mem_cons]
      rw [h x]

theorem dedupFrom_append :
    ∀ (xs ys : List String) (done : List String),
      dedupFrom done (xs ++ ys)
        = dedupFrom done xs ++ dedupFrom (dedupFrom done xs ++ done) ys
  | [], ys, done => by simp [dedupFrom]
  | t :: xs, ys, done => by
    by_cases hm : t ∈ done
    · rw [List.cons_append, dedupFrom, if_pos hm, dedupFrom, if_pos hm]
      exact dedupFrom_append xs ys done
    · rw [List.cons_append, dedupFrom, if_neg hm, dedupFrom, if_neg hm]
      rw [dedupFrom_append xs ys (t :: done)]
      rw [List.cons_append]
      refine congrArg (t :: ·) (congrArg _ ?_)
      apply dedupFrom_congr
      intro x
      simp only [List.mem_append, List.mem_cons]
      tauto

theorem dedupFrom_eq_nil :
    ∀ (todos done : List String), (∀ t ∈ todos, t ∈ done) →
      dedupFrom done todos = []
  | [], done => by intro _; rfl
  | t :: rest, done => by
    intro h
    rw [dedupFrom, if_pos (h t (List.mem_cons_self _ _))]
    exact dedupFrom_eq_nil rest done (fun u hu => h u (List.mem_cons_of_mem _ hu))

theorem dedupFrom_cons_structure :
    ∀ (todos done : List String) (h0 : String) (tail : List String),
      dedupFrom done todos = h0 :: tail →
      ∃ pre rest, todos = pre ++ h0 :: rest ∧ (∀ x ∈ pre, x ∈ done) ∧ h0 ∉ done ∧
        dedupFrom (h0 :: done) rest = tail
  | [], done, h0, tail => by intro h; cases h
  | t :: rest2, done, h0, tail => by
    intro h
    by_cases hm : t ∈ done
    · rw [dedupFrom, if_pos hm] at h
      obtain ⟨pre, rest, h1, h2, h3, h4⟩ := dedupFrom_cons_structure rest2 done h0 tail h
      refine ⟨t :: pre, rest, by rw [h1]; rfl, ?_, h3, h4⟩
      intro x hx
      rcases List.mem_cons.mp hx with hx1 | hx1
      · subst hx1; exact hm
      · exact h2 x hx1
    · rw [dedupFrom, if_neg hm] at h
      have ht : t = h0 := by
        have := congrArg List.head? h
        simpa using this
      subst ht
      have htail : dedupFrom (t :: done) rest2 = tail := by
        have := congrArg List.tail h
        simpa using this
      exact ⟨[], rest2, rfl, by simp, hm, htail⟩

theorem loopK_all_done {T : Type} :
    ∀ (todos : List String) (index : Index T) (done : List String),
      (∀ t ∈ todos, t ∈ done) → loopK todos index done = []
  | [], index, done => by intro _; exact loopK_nil index done
  | t :: rest, index, done => by
    intro h
    rw [loopK_skip _ _ _ _ (h t (List.mem_cons_self _ _))]
    exact loopK_all_done rest index done (fun u hu => h u (List.mem_cons_of_mem _ hu))

theorem loopK_skip_front {T : Type} :
    ∀ (pre todos : List String) (index : Index T) (done : List String),
      (∀ x ∈ pre, x ∈ done) → loopK (pre ++ todos) index done = loopK todos index done
  | [], todos, index, done => by intro _; rfl
  | t :: pre, todos, index, done => by
    intro h
    rw [List.cons_append, loopK_skip _ _ _ _ (h t (List.mem_cons_self _ _))]
    exact loopK_skip_front pre todos index done (fun u hu => h u (List.mem_cons_of_mem _ hu))

theorem dedupFrom_nil_all_done :
    ∀ (todos done : List String), dedupFrom done todos = [] → ∀ t ∈ todos, t ∈ done
  | [], done => by intro _ t ht; cases ht
  | u :: rest, done => by
    intro h t ht
    by_cases hu : u ∈ done
    · rw [dedupFrom, if_pos hu] at h
      rcases List.mem_cons.mp ht with h1 | h1
      · subst h1; exact hu
      · exact dedupFrom_nil_all_done rest done h t h1
    · rw [dedupFrom, if_neg hu] at h
      cases h

theorem dedupFrom_length_le :
    ∀ (todos done : List String), (dedupFrom done todos).length ≤ todos.length
  | [], _ => by simp [dedupFrom]
  | t :: rest, done => by
    by_cases hm : t ∈ done
    · rw [dedupFrom, if_pos hm]
      have := dedupFrom_length_le rest done
      simp only [List.length_cons]
      omega
    · rw [dedupFrom, if_neg hm]
      have := dedupFrom_length_le rest (t :: done)
      simp only [List.length_cons]
      omega

theorem depsLen_flatMap {T : Type} (g : List (Api T)) :
    (g.flatMap (fun a => a.deps)).length = depsLen g := by
  simp only [depsLen, List.length_flatMap]
  rfl

/-- The traversal depends on the work queue only through its
first-occurrence normalization: queues with the same normalization extract
the same pairs (bounded version, inducting on an explicit bound). -/
theorem loopK_dedup_congr_bounded {T : Type} (n : Nat) :
    ∀ (todos1 todos2 : List String) (index : Index T) (done : List String),
      index.length + totalDeps index + (dedupFrom done todos1).length ≤ n →
      dedupFrom done todos1 = dedupFrom done todos2 →
      loopK todos1 index done = loopK todos2 index done := by
  induction n with
  | zero =>
    intro todos1 todos2 index done hb heq
    have hd : dedupFrom done todos1 = [] := by
      have := List.eq_nil_of_length_eq_zero (by omega :
        (dedupFrom done todos1).length = 0)
      exact this
    have h2 : dedupFrom done todos2 = [] := by rw [← heq, hd]
    rw [loopK_all_done todos1 index done (dedupFrom_nil_all_done todos1 done hd),
      loopK_all_done todos2 index done (dedupFrom_nil_all_done todos2 done h2)]
  | succ n ih =>
    intro todos1 todos2 index done hb heq
    cases hd : dedupFrom done todos1 with
    | nil =>
      have h2 : dedupFrom done todos2 = [] := by rw [← heq, hd]
      rw [loopK_all_done todos1 index done (dedupFrom_nil_all_done todos1 done hd),
        loopK_all_done todos2 index done (dedupFrom_nil_all_done todos2 done h2)]
    | cons h0 tail =>
      have h2 : dedupFrom done todos2 = h0 :: tail := by rw [← heq, hd]
      obtain ⟨pre1, rest1, he1, hp1, hh1, htl1⟩ :=
        dedupFrom_cons_structure todos1 done h0 tail hd
      obtain ⟨pre2, rest2, he2, hp2, hh2, htl2⟩ :=
        dedupFrom_cons_structure todos2 done h0 tail h2
      have hdlen : (dedupFrom done todos1).length = tail.length + 1 := by
        rw [hd]
        rfl
      subst he1 he2
      rw [loopK_skip_front pre1 _ index done hp1, loopK_skip_front pre2 _ index done hp2]
      cases hlr : lookupRemove index h0 with
      | some pr =>
        obtain ⟨g, index2⟩ := pr
        have hlen := lookupRemove_length index h0 g index2 hlr
        have hdeps := lookupRemove_totalDeps index h0 g index2 hlr
        have heq2 : dedupFrom (h0 :: done) (rest1 ++ g.flatMap (fun a => a.deps))
            = dedupFrom (h0 :: done) (rest2 ++ g.flatMap (fun a => a.deps)) := by
          rw [dedupFrom_append, dedupFrom_append, htl1, htl2]
        have hbound : index2.length + totalDeps index2
            + (dedupFrom (h0 :: done) (rest1 ++ g.flatMap (fun a => a.deps))).length
              ≤ n := by
          rw [dedupFrom_append, htl1]
          have h5 := dedupFrom_length_le (g.flatMap (fun a => a.deps))
            (tail ++ h0 :: done)
          have h6 := depsLen_flatMap g
          simp only [List.length_append]
          omega
        rw [loopK_found _ _ _ _ _ _ hh1 hlr, loopK_found _ _ _ _ _ _ hh2 hlr,
          ih (rest1 ++ g.flatMap (fun a => a.deps))
            (rest2 ++ g.flatMap (fun a => a.deps)) index2 (h0 :: done) hbound heq2]
      | none =>
        have heq2 : dedupFrom (h0 :: done) rest1 = dedupFrom (h0 :: done) rest2 := by
          rw [htl1, htl2]
        have hbound : index.length + totalDeps index
            + (dedupFrom (h0 :: done) rest1).length ≤ n := by
          rw [htl1]
          omega
        rw [loopK_miss _ _ _ _ hh1 hlr, loopK_miss _ _ _ _ hh2 hlr]
        exact ih rest1 rest2 index (h0 :: done) hbound heq2

/-- Queues with the same first-occurrence normalization extract the same
pairs. -/
theorem loopK_dedup_congr {T : Type} (todos1 todos2 : List String) (index : Index T)
    (done : List String)
    (heq : dedupFrom done todos1 = dedupFrom done todos2) :
    loopK todos1 index done = loopK todos2 index done :=
  loopK_dedup_congr_bounded
    (index.length + totalDeps index + (dedupFrom done todos1).length)
    todos1 todos2 index done (le_refl _) heq

/-- The traversal depends on the index only through the keys it actually
extracts: two indices which agree on every key except possibly keys that the
first run never extracts (and which the second index does not hold at all)
produce the same extraction. -/
theorem loopK_index_congr {T : Type} :
    ∀ (todos : List String) (index1 index2 : Index T) (done : List String),
      (keysIdx index1).Nodup → (keysIdx index2).Nodup →
      (∀ k, lookupIdx index1 k = lookupIdx index2 k ∨
        (lookupIdx index2 k = none ∧ k ∉ (loopK todos index1 done).map Prod.fst)) →
      loopK todos index1 done = loopK todos index2 done
  | [], index1, index2, done => by
    intro _ _ _
    rw [loopK_nil, loopK_nil]
  | todo :: rest, index1, index2, done => by
    intro hnd1 hnd2 H
    by_cases hmem : todo ∈ done
    · rw [loopK_skip _ _ _ _ hmem, loopK_skip _ _ _ _ hmem]
      refine loopK_index_congr rest index1 index2 done hnd1 hnd2 ?_
      intro k
      rcases H k with h | h
      · exact Or.inl h
      · refine Or.inr ⟨h.1, ?_⟩
        have h2 := h.2
        rw [loopK_skip _ _ _ _ hmem] at h2
        exact h2
    · cases hlr : lookupRemove index1 todo with
      | some pr =>
        obtain ⟨g, r1⟩ := pr
        have hlen : r1.length < index1.length := by
          have := lookupRemove_length index1 todo g r1 hlr
          omega
        have hl1 : lookupIdx index1 todo = some g := lookupRemove_lookupIdx _ _ _ _ hlr
        have hl2 : lookupIdx index2 todo = some g := by
          rcases H todo with h | h
          · rw [← h]
            exact hl1
          · exfalso
            apply h.2
            rw [loopK_found _ _ _ _ _ _ hmem hlr, List.map_cons]
            exact List.mem_cons_self _ _
        have hlr2 : ∃ r2, lookupRemove index2 todo = some (g, r2) := by
          cases hlr2 : lookupRemove index2 todo with
          | none =>
            rw [lookupRemove_eq_none_iff] at hlr2
            rw [hlr2] at hl2
            cases hl2
          | some pr2 =>
            obtain ⟨g2, r2⟩ := pr2
            have := lookupRemove_lookupIdx index2 todo g2 r2 hlr2
            rw [this] at hl2
            cases hl2
            exact ⟨r2, rfl⟩
        obtain ⟨r2, hlr2⟩ := hlr2
        rw [loopK_found _ _ _ _ _ _ hmem hlr, loopK_found _ _ _ _ _ _ hmem hlr2]
        refine congrArg ((todo, g) :: ·)
          (loopK_index_congr _ r1 r2 (todo :: done)
            (lookupRemove_nodup index1 todo g r1 hlr hnd1)
            (lookupRemove_nodup index2 todo g r2 hlr2 hnd2) ?_)
        intro k
        by_cases hkt : k = todo
        · subst hkt
          rw [lookupRemove_lookupIdx_self index1 k g r1 hlr hnd1,
            lookupRemove_lookupIdx_self index2 k g r2 hlr2 hnd2]
          exact Or.inl rfl
        · rw [lookupRemove_lookupIdx_other index1 todo g r1 k hlr hkt,
            lookupRemove_lookupIdx_other index2 todo g r2 k hlr2 hkt]
          rcases H k with h | h
          · exact Or.inl h
          · refine Or.inr ⟨h.1, ?_⟩
            have h2 := h.2
            rw [loopK_found _ _ _ _ _ _ hmem hlr, List.map_cons] at h2
            intro hc
            exact h2 (List.mem_cons_of_mem _ hc)
      | none =>
        have hl1 : lookupIdx index1 todo = none :=
          (lookupRemove_eq_none_iff index1 todo).mp hlr
        have hl2 : lookupIdx index2 todo = none := by
          rcases H todo with h | h
          · rw [← h]
            exact hl1
          · exact h.1
        have hlr2 : lookupRemove index2 todo = none :=
          (lookupRemove_eq_none_iff index2 todo).mpr hl2
        rw [loopK_miss _ _ _ _ hmem hlr, loopK_miss _ _ _ _ hmem hlr2]
        refine loopK_index_congr rest index1 index2 (todo :: done) hnd1 hnd2 ?_
        intro k
        rcases H k with h | h
        · exact Or.inl h
        · refine Or.inr ⟨h.1, ?_⟩
          have h2 := h.2
          rw [loopK_miss _ _ _ _ hmem hlr] at h2
          exact h2
termination_by todos index1 => (index1.length, todos.length)
decreasing_by
  all_goals
    first
    | exact Prod.Lex.right _ (Nat.lt_succ_self _)
    | exact Prod.Lex.left _ _ (by omega)

/-- One traversal phase: processes exactly the given queue entries (not the
dependencies they emit), returning the extracted pairs, the emitted
dependency queue, and the updated index and visited set. -/
def processPhase {T : Type} : List String → Index T → List String →
    List (String × List (Api T)) × List String × Index T × List String
  | [], index, done => ([], [], index, done)
  | t :: rest, index, done =>
    if t ∈ done then processPhase rest index done
    else
      match lookupRemove index t with
      | some (g, index2) =>
        let r := processPhase rest index2 (t :: done)
        ((t, g) :: r.1, g.flatMap (fun a => a.deps) ++ r.2.1, r.2.2.1, r.2.2.2)
      | none => processPhase rest index (t :: done)

/-- Phase decomposition of the traversal: the entries of the initial queue
segment are processed first, and the dependencies they emit are processed
after the rest of the queue. -/
theorem loopK_phase {T : Type} :
    ∀ (xs ys : List String) (index : Index T) (done : List String),
      loopK (xs ++ ys) index done
        = (processPhase xs index done).1
          ++ loopK (ys ++ (processPhase xs index done).2.1)
              (processPhase xs index done).2.2.1 (processPhase xs index done).2.2.2
  | [], ys, index, done => by simp [processPhase]
  | t :: xs, ys, index, done => by
    by_cases hm : t ∈ done
    · have hpp : processPhase (t :: xs) index done = processPhase xs index done := by
        rw [processPhase]
        simp [hm]
      rw [List.cons_append, loopK_skip _ _ _ _ hm, hpp]
      exact loopK_phase xs ys index done
    · cases hlr : lookupRemove index t with
      | some pr =>
        obtain ⟨g, index2⟩ := pr
        have hpp : processPhase (t :: xs) index done
            = ((t, g) :: (processPhase xs index2 (t :: done)).1,
               g.flatMap (fun a => a.deps) ++ (processPhase xs index2 (t :: done)).2.1,
               (processPhase xs index2 (t :: done)).2.2.1,
               (processPhase xs index2 (t :: done)).2.2.2) := by
          rw [processPhase]
          simp [hm, hlr]
        rw [List.cons_append, loopK_found _ _ _ _ _ _ hm hlr, hpp]
        have hassoc : (xs ++ ys) ++ g.flatMap (fun a => a.deps)
            = xs ++ (ys ++ g.flatMap (fun a => a.deps)) := by simp
        rw [hassoc, loopK_phase xs (ys ++ g.flatMap (fun a => a.deps)) index2 (t :: done)]
        simp [List.append_assoc]
      | none =>
        have hpp : processPhase (t :: xs) index done
            = processPhase xs index (t :: done) := by
          rw [processPhase]
          simp [hm, hlr]
        rw [List.cons_append, loopK_miss _ _ _ _ hm hlr, hpp]
        exact loopK_phase xs ys index (t :: done)

/-- When every phase entry is visited or resolvable, the extracted keys of
the phase are exactly the first-occurrence normalization of the segment. -/
theorem processPhase_keys {T : Type} :
    ∀ (xs : List String) (index : Index T) (done : List String),
      (keysIdx index).Nodup →
      (∀ t ∈ xs, t ∈ done ∨ lookupIdx index t ≠ none) →
      (processPhase xs index done).1.map Prod.fst = dedupFrom done xs
  | [], index, done => by intro _ _; rfl
  | t :: xs, index, done => by
    intro hnd hres
    by_cases hm : t ∈ done
    · have hpp : processPhase (t :: xs) index done = processPhase xs index done := by
        rw [processPhase]
        simp [hm]
      rw [hpp, dedupFrom, if_pos hm]
      exact processPhase_keys xs index done hnd
        (fun u hu => hres u (List.mem_cons_of_mem _ hu))
    · have hlook : lookupIdx index t ≠ none := by
        rcases hres t (List.mem_cons_self _ _) with h | h
        · exact absurd h hm
        · exact h
      cases hlr : lookupRemove index t with
      | none =>
        rw [lookupRemove_eq_none_iff] at hlr
        exact absurd hlr hlook
      | some pr =>
        obtain ⟨g, index2⟩ := pr
        have hpp : processPhase (t :: xs) index done
            = ((t, g) :: (processPhase xs index2 (t :: done)).1,
               g.flatMap (fun a => a.deps) ++ (processPhase xs index2 (t :: done)).2.1,
               (processPhase xs index2 (t :: done)).2.2.1,
               (processPhase xs index2 (t :: done)).2.2.2) := by
          rw [processPhase]
          simp [hm, hlr]
        rw [hpp, dedupFrom, if_neg hm]
        show t :: (processPhase xs index2 (t :: done)).1.map Prod.fst
          = t :: dedupFrom (t :: done) xs
        refine congrArg (t :: ·) (processPhase_keys xs index2 (t :: done)
          (lookupRemove_nodup index t g index2 hlr hnd) ?_)
        intro u hu
        by_cases hut : u = t
        · subst hut
          exact Or.inl (List.mem_cons_self _ _)
        · rcases hres u (List.mem_cons_of_mem _ hu) with h | h
          · exact Or.inl (List.mem_cons_of_mem _ h)
          · refine Or.inr ?_
            rw [lookupRemove_lookupIdx_other index t g index2 u hlr hut]
            exact h

/-- After a phase, the visited set contains the previous visited set and
every processed entry. -/
theorem processPhase_done {T : Type} :
    ∀ (xs : List String) (index : Index T) (done : List String),
      (∀ x ∈ done, x ∈ (processPhase xs index done).2.2.2) ∧
        ∀ x ∈ xs, x ∈ (processPhase xs index done).2.2.2
  | [], index, done => by
    refine ⟨fun x hx => hx, ?_⟩
    intro x hx
    cases hx
  | t :: xs, index, done => by
    by_cases hm : t ∈ done
    · have hpp : processPhase (t :: xs) index done = processPhase xs index done := by
        rw [processPhase]
        simp [hm]
      rw [hpp]
      obtain ⟨h1, h2⟩ := processPhase_done xs index done
      refine ⟨h1, ?_⟩
      intro x hx
      rcases List.mem_cons.mp hx with hx1 | hx1
      · subst hx1; exact h1 x hm
      · exact h2 x hx1
    · cases hlr : lookupRemove index t with
      | some pr =>
        obtain ⟨g, index2⟩ := pr
        have hpp : processPhase (t :: xs) index done
            = ((t, g) :: (processPhase xs index2 (t :: done)).1,
               g.flatMap (fun a => a.deps) ++ (processPhase xs index2 (t :: done)).2.1,
               (processPhase xs index2 (t :: done)).2.2.1,
               (processPhase xs index2 (t :: done)).2.2.2) := by
          rw [processPhase]
          simp [hm, hlr]
        rw [hpp]
        obtain ⟨h1, h2⟩ := processPhase_done xs index2 (t :: done)
        show (∀ x ∈ done, x ∈ (processPhase xs index2 (t :: done)).2.2.2) ∧ _
        refine ⟨fun x hx => h1 x (List.mem_cons_of_mem _ hx), ?_⟩
        intro x hx
        rcases List.mem_cons.mp hx with hx1 | hx1
        · subst hx1; exact h1 x (List.mem_cons_self _ _)
        · exact h2 x hx1
      | none =>
        have hpp : processPhase (t :: xs) index done
            = processPhase xs index (t :: done) := by
          rw [processPhase]
          simp [hm, hlr]
        rw [hpp]
        obtain ⟨h1, h2⟩ := processPhase_done xs index (t :: done)
        refine ⟨fun x hx => h1 x (List.mem_cons_of_mem _ hx), ?_⟩
        intro x hx
        rcases List.mem_cons.mp hx with hx1 | hx1
        · subst hx1; exact h1 x (List.mem_cons_self _ _)
        · exact h2 x hx1

/-- The seed-processing phase of the full run. -/
def seedPhase {T : Type} (apis : List (Api T)) (allow : String → Bool) :
    List (String × List (Api T)) × List String × Index T × List String :=
  processPhase (seedNames apis allow) (buildIndex apis) []

/-- The pairs extracted after the seed phase: the dependency-discovered
groups, in breadth-first discovery order. -/
def depPairs {T : Type} (apis : List (Api T)) (allow : String → Bool) :
    List (String × List (Api T)) :=
  loopK (seedPhase apis allow).2.1 (seedPhase apis allow).2.2.1
    (seedPhase apis allow).2.2.2

theorem reachedPairs_phase {T : Type} (apis : List (Api T)) (allow : String → Bool) :
    reachedPairs apis allow = (seedPhase apis allow).1 ++ depPairs apis allow := by
  rw [reachedPairs, depPairs, seedPhase]
  have h := loopK_phase (seedNames apis allow) [] (buildIndex apis) []
  rw [List.append_nil] at h
  rw [h]
  rfl

theorem seed_resolvable {T : Type} (apis : List (Api T)) (allow : String → Bool) :
    ∀ t ∈ seedNames apis allow, t ∈ ([] : List String) ∨
      lookupIdx (buildIndex apis) t ≠ none := by
  intro t ht
  right
  rw [seedNames, List.mem_map] at ht
  obtain ⟨a, ha, hat⟩ := ht
  rw [List.mem_filter] at ha
  rw [lookupIdx_buildIndex]
  have hmem : a ∈ groupOf apis t := by
    rw [mem_groupOf]
    exact ⟨ha.1, hat⟩
  have hne : ¬ (groupOf apis t).isEmpty := by
    rw [List.isEmpty_iff]
    intro hc
    rw [hc] at hmem
    cases hmem
  simp [hne]

theorem seedPhase_keys {T : Type} (apis : List (Api T)) (allow : String → Bool) :
    (seedPhase apis allow).1.map Prod.fst = dedupFrom [] (seedNames apis allow) := by
  rw [seedPhase]
  exact processPhase_keys (seedNames apis allow) (buildIndex apis) []
    (nodup_buildIndex apis) (seed_resolvable apis allow)

theorem depPairs_not_seed {T : Type} (apis : List (Api T)) (allow : String → Bool) :
    ∀ p ∈ depPairs apis allow, p.1 ∉ seedNames apis allow := by
  intro p hp hc
  have h1 := (loopK_keys_nodup (seedPhase apis allow).2.1 (seedPhase apis allow).2.2.1
    (seedPhase apis allow).2.2.2).2
  have h2 : p.1 ∈ (depPairs apis allow).map Prod.fst := by
    rw [List.mem_map]
    exact ⟨p, hp, rfl⟩
  rw [depPairs] at h2
  have h3 := h1 p.1 h2
  apply h3
  rw [seedPhase]
  exact (processPhase_done (seedNames apis allow) (buildIndex apis) []).2 p.1 hc

theorem depPairs_groups {T : Type} (apis : List (Api T)) (allow : String → Bool) :
    ∀ p ∈ depPairs apis allow, p.2 = groupOf apis p.1 ∧ p.2 ≠ [] := by
  intro p hp
  have hmem : p ∈ reachedPairs apis allow := by
    rw [reachedPairs_phase]
    exact List.mem_append_right _ hp
  exact loopK_groups apis (seedNames apis allow) (buildIndex apis) []
    (SubIndex_buildIndex apis) p hmem

theorem seedPhase_groups {T : Type} (apis : List (Api T)) (allow : String → Bool) :
    ∀ p ∈ (seedPhase apis allow).1, p.2 = groupOf apis p.1 ∧ p.2 ≠ [] := by
  intro p hp
  have hmem : p ∈ reachedPairs apis allow := by
    rw [reachedPairs_phase]
    exact List.mem_append_left _ hp
  exact loopK_groups apis (seedNames apis allow) (buildIndex apis) []
    (SubIndex_buildIndex apis) p hmem

/-- Structure of the full extraction order: first the seed identities in
first-occurrence order, then the dependency-discovered identities, none of
which is a seed identity. -/
theorem reachedKeys_structure {T : Type} (apis : List (Api T)) (allow : String → Bool) :
    reachedKeys apis allow
      = dedupFrom [] (seedNames apis allow) ++ (depPairs apis allow).map Prod.fst := by
  rw [reachedKeys, reachedPairs_phase, List.map_append, seedPhase_keys]

/-- Auxiliary for claim C3: every reachable identity with at least one input
node is the endpoint of a dependency chain which starts at a seed identity
and whose identities are all represented in the output. -/
theorem reach_chain {T : Type} (apis : List (Api T)) (allow : String → Bool) (k : String)
    (hr : Reach apis allow k) :
    (∃ b ∈ apis, b.typename = k) →
      ∃ (l : List String) (s : String), l.head? = some s ∧ s ∈ seedNames apis allow ∧
        l.getLast? = some k ∧ Chain apis l ∧
        ∀ u ∈ l, ∃ b ∈ filter_apis_by_following_edges_from_allowlist apis allow,
          b.typename = u := by
  induction hr with
  | seed hs =>
    rename_i k2
    intro hg
    refine ⟨[k2], k2, rfl, hs, rfl, trivial, ?_⟩
    intro u hu
    have hu2 : u = k2 := List.mem_singleton.mp hu
    subst hu2
    obtain ⟨b, hb, hbt⟩ := hg
    refine ⟨b, ?_, hbt⟩
    rw [mem_filter_iff]
    exact ⟨hb, hbt ▸ Reach.seed hs⟩
  | step a hr2 hmem htn hdep ih =>
    rename_i k2 d
    intro hg
    obtain ⟨l, s, hh, hsseed, hlast, hchain, hall⟩ := ih ⟨a, hmem, htn⟩
    refine ⟨l ++ [d], s, ?_, hsseed, List.getLast?_concat l,
      chain_append apis l k2 d hchain hlast ⟨a, hmem, htn, hdep⟩, ?_⟩
    · rw [List.head?_append, hh]
      rfl
    · intro u hu
      rcases List.mem_append.mp hu with hu1 | hu1
      · exact hall u hu1
      · have hu2 : u = d := List.mem_singleton.mp hu1
        subst hu2
        obtain ⟨b, hb, hbt⟩ := hg
        refine ⟨b, ?_, hbt⟩
        rw [mem_filter_iff]
        exact ⟨hb, hbt ▸ Reach.step a hr2 hmem htn hdep⟩

theorem dedupFrom_subset :
    ∀ (todos done : List String) (x : String), x ∈ dedupFrom done todos → x ∈ todos
  | [], _, x => by intro h; cases h
  | t :: rest, done, x => by
    intro h
    by_cases hm : t ∈ done
    · rw [dedupFrom, if_pos hm] at h
      exact List.mem_cons_of_mem _ (dedupFrom_subset rest done x h)
    · rw [dedupFrom, if_neg hm] at h
      rcases List.mem_cons.mp h with h1 | h1
      · subst h1; exact List.mem_cons_self _ _
      · exact List.mem_cons_of_mem _ (dedupFrom_subset rest (t :: done) x h1)

theorem dedupFrom_replicate_mem :
    ∀ (n : Nat) (k : String) (ys done : List String), k ∈ done →
      dedupFrom done (List.replicate n k ++ ys) = dedupFrom done ys
  | 0, k, ys, done => by intro _; rfl
  | n + 1, k, ys, done => by
    intro hm
    rw [List.replicate_succ, List.cons_append, dedupFrom, if_pos hm]
    exact dedupFrom_replicate_mem n k ys done hm

theorem filter_flatMap_list {α β : Type} (keys : List α) (g : α → List β) (p : β → Bool) :
    (keys.flatMap g).filter p = keys.flatMap (fun k => (g k).filter p) := by
  induction keys with
  | nil => rfl
  | cons k rest ih =>
    rw [List.flatMap_cons, List.flatMap_cons, List.filter_append, ih]

theorem groupOf_groupOf {T : Type} (apis : List (Api T)) (k2 k : String) :
    groupOf (groupOf apis k2) k = if k2 = k then groupOf apis k2 else [] := by
  by_cases hk : k2 = k
  · subst hk
    rw [if_pos rfl]
    rw [groupOf, List.filter_eq_self]
    intro a ha
    rw [groupOf, List.mem_filter] at ha
    exact ha.2
  · rw [if_neg hk]
    rw [groupOf, List.filter_eq_nil_iff]
    intro a ha
    rw [groupOf, List.mem_filter] at ha
    have := ha.2
    rw [beq_iff_eq] at this ⊢
    rw [this]
    exact fun hc => hk hc

theorem flatMap_if_single {T : Type} (apis : List (Api T)) (k : String) :
    ∀ keys : List String, keys.Nodup →
      keys.flatMap (fun k2 => if k2 = k then groupOf apis k2 else [])
        = if k ∈ keys then groupOf apis k else []
  | [] => by intro _; rfl
  | k2 :: rest => by
    intro hnd
    rw [List.flatMap_cons]
    rw [List.nodup_cons] at hnd
    by_cases hk : k2 = k
    · subst hk
      rw [if_pos rfl, if_pos (List.mem_cons_self _ _)]
      have hrest : rest.flatMap (fun u => if u = k2 then groupOf apis u else []) = [] := by
        rw [List.flatMap_eq_nil_iff]
        intro u hu
        have hne : ¬ u = k2 := by
          intro hc
          subst hc
          exact hnd.1 hu
        rw [if_neg hne]
      rw [hrest, List.append_nil]
    · rw [if_neg hk, flatMap_if_single apis k rest hnd.2, List.nil_append]
      by_cases hm : k ∈ rest
      · rw [if_pos hm, if_pos (List.mem_cons_of_mem _ hm)]
      · rw [if_neg hm, if_neg (by
          intro hc
          rcases List.mem_cons.mp hc with h1 | h1
          · exact hk h1.symm
          · exact hm h1)]

/-- The identity group of `k` inside the filter output: the original group
when `k` was reached, empty otherwise. -/
theorem groupOf_output {T : Type} (apis : List (Api T)) (allow : String → Bool)
    (k : String) :
    groupOf (filter_apis_by_following_edges_from_allowlist apis allow) k
      = if k ∈ reachedKeys apis allow then groupOf apis k else [] := by
  rw [filter_eq_flatMap]
  rw [show groupOf ((reachedKeys apis allow).flatMap (fun u => groupOf apis u)) k
      = ((reachedKeys apis allow).flatMap (fun u => groupOf apis u)).filter
        (fun a => a.typename == k) from rfl]
  rw [filter_flatMap_list]
  have hfun : (fun u => (groupOf apis u).filter (fun a => a.typename == k))
      = fun u => if u = k then groupOf apis u else [] := by
    funext u
    exact groupOf_groupOf apis u k
  rw [hfun]
  exact flatMap_if_single apis k (reachedKeys apis allow) (reachedKeys_nodup apis allow)

/-- Number of allowlisted nodes in the identity group of `k`. -/
def allowCount {T : Type} (apis : List (Api T)) (allow : String → Bool) (k : String) : Nat :=
  ((groupOf apis k).filter (fun a => allow a.typenameForAllowlist)).length

theorem seedNames_append {T : Type} (l1 l2 : List (Api T)) (allow : String → Bool) :
    seedNames (l1 ++ l2) allow = seedNames l1 allow ++ seedNames l2 allow := by
  rw [seedNames, seedNames, seedNames, List.filter_append, List.map_append]

theorem seedNames_flatMap {T : Type} (keys : List String) (g : String → List (Api T))
    (allow : String → Bool) :
    seedNames (keys.flatMap g) allow = keys.flatMap (fun k => seedNames (g k) allow) := by
  induction keys with
  | nil => rfl
  | cons k rest ih => rw [List.flatMap_cons, List.flatMap_cons, seedNames_append, ih]

theorem map_const_typename {T : Type} :
    ∀ (l : List (Api T)) (k : String), (∀ a ∈ l, a.typename = k) →
      l.map (fun a => a.typename) = List.replicate l.length k
  | [], k => by intro _; rfl
  | a :: rest, k => by
    intro h
    rw [List.map_cons, List.length_cons, List.replicate_succ,
      h a (List.mem_cons_self _ _),
      map_const_typename rest k (fun b hb => h b (List.mem_cons_of_mem _ hb))]

theorem seedNames_groupOf {T : Type} (apis : List (Api T)) (allow : String → Bool)
    (k : String) :
    seedNames (groupOf apis k) allow = List.replicate (allowCount apis allow k) k := by
  rw [seedNames, allowCount]
  apply map_const_typename
  intro a ha
  rw [List.mem_filter] at ha
  exact ((mem_groupOf apis k a).mp ha.1).2

theorem dedupFrom_flatMap_replicate (cnt : String → Nat) :
    ∀ (keys done : List String), keys.Nodup → (∀ k ∈ keys, k ∉ done) →
      dedupFrom done (keys.flatMap (fun k => List.replicate (cnt k) k))
        = keys.filter (fun k => decide (0 < cnt k))
  | [], done => by intro _ _; rfl
  | k :: rest, done => by
    intro hnd hdone
    rw [List.flatMap_cons, List.filter_cons]
    rw [List.nodup_cons] at hnd
    cases hc : cnt k with
    | zero =>
      rw [List.replicate_zero, List.nil_append, if_neg (by simp)]
      exact dedupFrom_flatMap_replicate cnt rest done hnd.2
        (fun u hu => hdone u (List.mem_cons_of_mem _ hu))
    | succ m =>
      rw [List.replicate_succ, List.cons_append, dedupFrom,
        if_neg (hdone k (List.mem_cons_self _ _)),
        dedupFrom_replicate_mem m k _ (k :: done) (List.mem_cons_self _ _),
        if_pos (by simp)]
      refine congrArg (k :: ·) (dedupFrom_flatMap_replicate cnt rest (k :: done) hnd.2 ?_)
      intro u hu hc2
      rcases List.mem_cons.mp hc2 with h1 | h1
      · subst h1; exact hnd.1 hu
      · exact hdone u (List.mem_cons_of_mem _ hu) h1

/-- Re-running the seed selection on the output produces the same
first-occurrence seed order as on the original input. -/
theorem seeds_output_dedup {T : Type} (apis : List (Api T)) (allow : String → Bool) :
    dedupFrom []
        (seedNames (filter_apis_by_following_edges_from_allowlist apis allow) allow)
      = dedupFrom [] (seedNames apis allow) := by
  rw [filter_eq_flatMap, seedNames_flatMap]
  have hrepl : (fun k => seedNames (groupOf apis k) allow)
      = fun k => List.replicate (allowCount apis allow k) k := by
    funext k
    exact seedNames_groupOf apis allow k
  rw [hrepl, dedupFrom_flatMap_replicate (allowCount apis allow) (reachedKeys apis allow)
    [] (reachedKeys_nodup apis allow) (by intro k _ hc; cases hc)]
  rw [reachedKeys_structure, List.filter_append]
  have hseedfilter : (dedupFrom [] (seedNames apis allow)).filter
      (fun k => decide (0 < allowCount apis allow k))
      = dedupFrom [] (seedNames apis allow) := by
    rw [List.filter_eq_self]
    intro k hk
    have hk2 : k ∈ seedNames apis allow := dedupFrom_subset _ _ k hk
    rw [seedNames, List.mem_map] at hk2
    obtain ⟨a, ha, hat⟩ := hk2
    rw [List.mem_filter] at ha
    have hmem2 : a ∈ (groupOf apis k).filter (fun b => allow b.typenameForAllowlist) := by
      rw [List.mem_filter]
      exact ⟨(mem_groupOf apis k a).mpr ⟨ha.1, hat⟩, ha.2⟩
    have hpos : 0 < allowCount apis allow k := by
      rw [allowCount, List.length_pos]
      exact List.ne_nil_of_mem hmem2
    simpa using hpos
  have hdepfilter : ((depPairs apis allow).map Prod.fst).filter
      (fun k => decide (0 < allowCount apis allow k)) = [] := by
    rw [List.filter_eq_nil_iff]
    intro k hk
    have hnotseed : k ∉ seedNames apis allow := by
      rw [List.mem_map] at hk
      obtain ⟨p, hp, hpk⟩ := hk
      rw [← hpk]
      exact depPairs_not_seed apis allow p hp
    simp only [decide_eq_true_eq]
    intro hpos
    apply hnotseed
    rw [allowCount, List.length_pos] at hpos
    obtain ⟨a, ha⟩ := List.exists_mem_of_ne_nil _ hpos
    rw [List.mem_filter] at ha
    have hga := (mem_groupOf apis k a).mp ha.1
    rw [seedNames, List.mem_map]
    refine ⟨a, ?_, hga.2⟩
    rw [List.mem_filter]
    exact ⟨hga.1, ha.2⟩
  rw [hseedfilter, hdepfilter, List.append_nil]

/-- The second run can use the original input's index: the two indices agree
on every identity the run can ever extract. -/
theorem loopK_output_index {T : Type} (apis : List (Api T)) (allow : String → Bool) :
    loopK (seedNames (filter_apis_by_following_edges_from_allowlist apis allow) allow)
        (buildIndex apis) []
      = loopK (seedNames (filter_apis_by_following_edges_from_allowlist apis allow) allow)
          (buildIndex (filter_apis_by_following_edges_from_allowlist apis allow)) [] := by
  have hsub : ∀ t ∈ seedNames (filter_apis_by_following_edges_from_allowlist apis allow)
      allow, Reach apis allow t := by
    intro t ht
    rw [seedNames, List.mem_map] at ht
    obtain ⟨a, ha, hat⟩ := ht
    rw [List.mem_filter] at ha
    have := (mem_filter_iff apis allow a).mp ha.1
    apply Reach.seed
    rw [seedNames, List.mem_map]
    refine ⟨a, ?_, hat⟩
    rw [List.mem_filter]
    exact ⟨this.1, ha.2⟩
  have hE1 : ∀ k ∈ (loopK (seedNames (filter_apis_by_following_edges_from_allowlist
      apis allow) allow) (buildIndex apis) []).map Prod.fst,
      k ∈ reachedKeys apis allow := by
    intro k hk
    have hr := loopK_sound apis allow _ (buildIndex apis) []
      (SubIndex_buildIndex apis) hsub k hk
    rw [List.mem_map] at hk
    obtain ⟨p, hp, hpk⟩ := hk
    have hg := loopK_groups apis _ (buildIndex apis) [] (SubIndex_buildIndex apis) p hp
    have hne : groupOf apis k ≠ [] := by
      rw [← hpk, ← hg.1]
      exact hg.2
    obtain ⟨a, ha⟩ := List.exists_mem_of_ne_nil _ hne
    have := (mem_groupOf apis k a).mp ha
    exact reach_mem_reachedKeys apis allow k hr ⟨a, this.1, this.2⟩
  apply loopK_index_congr _ (buildIndex apis)
    (buildIndex (filter_apis_by_following_edges_from_allowlist apis allow)) []
    (nodup_buildIndex apis)
    (nodup_buildIndex (filter_apis_by_following_edges_from_allowlist apis allow))
  intro k
  by_cases hk : k ∈ reachedKeys apis allow
  · left
    rw [lookupIdx_buildIndex, lookupIdx_buildIndex, groupOf_output, if_pos hk]
  · right
    constructor
    · rw [lookupIdx_buildIndex, groupOf_output, if_neg hk]
      rfl
    · intro hc
      exact hk (hE1 k hc)

/-- Claim C1: the output of the filter contains exactly the union of the
identity-keyed node groups whose identity is transitively reachable, via
dependency edges over the identity graph, from the identities of nodes whose
allowlist identity is accepted: a node is in the output iff it is an input
node whose identity is reachable, so every output node is reachable from an
allowlist root via zero or more dependency edges and no unreachable group
contributes any node. -/
theorem claim_C1 {T : Type} (apis : List (Api T)) (allow : String → Bool) (a : Api T) :
    a ∈ filter_apis_by_following_edges_from_allowlist apis allow
      ↔ a ∈ apis ∧ Reach apis allow a.typename :=
  mem_filter_iff apis allow a

/-- Claim C2: closure — for every node in the output, each of its
dependency-edge identities is either unresolved (no input node carries that
identity) or is the identity of some node that is also in the output. -/
theorem claim_C2 {T : Type} (apis : List (Api T)) (allow : String → Bool) (a : Api T)
    (ha : a ∈ filter_apis_by_following_edges_from_allowlist apis allow)
    (d : String) (hd : d ∈ a.deps) :
    (¬ ∃ b ∈ apis, b.typename = d) ∨
      ∃ b ∈ filter_apis_by_following_edges_from_allowlist apis allow, b.typename = d := by
  rw [mem_filter_iff] at ha
  by_cases hres : ∃ b ∈ apis, b.typename = d
  · right
    obtain ⟨b, hb, hbt⟩ := hres
    refine ⟨b, ?_, hbt⟩
    rw [mem_filter_iff]
    exact ⟨hb, hbt ▸ Reach.step a ha.2 ha.1 rfl hd⟩
  · left
    exact hres

theorem claim_C2_witness :
    (¬ ∃ b ∈ exScenario1, b.typename = "TypeB") ∨
      ∃ b ∈ filter_apis_by_following_edges_from_allowlist exScenario1 allowTypeA,
        b.typename = "TypeB" :=
  claim_C2 exScenario1 allowTypeA ⟨"TypeA", "TypeA", ["TypeB"], ()⟩
    (by rw [exScenario1_eval]; decide) "TypeB" (by decide)

/-- Claim C3: soundness — every output node is the endpoint of a finite
chain of identities which starts at the identity of an allowlisted node,
follows dependency edges, and whose identities are all identities of output
nodes. -/
theorem claim_C3 {T : Type} (apis : List (Api T)) (allow : String → Bool) (a : Api T)
    (ha : a ∈ filter_apis_by_following_edges_from_allowlist apis allow) :
    ∃ (l : List String) (s : String), l.head? = some s ∧ s ∈ seedNames apis allow ∧
      l.getLast? = some a.typename ∧ Chain apis l ∧
      ∀ u ∈ l, ∃ b ∈ filter_apis_by_following_edges_from_allowlist apis allow,
        b.typename = u := by
  rw [mem_filter_iff] at ha
  exact reach_chain apis allow a.typename ha.2 ⟨a, ha.1, rfl⟩

theorem claim_C3_witness :
    ∃ (l : List String) (s : String), l.head? = some s ∧
      s ∈ seedNames exScenario1 allowTypeA ∧
      l.getLast? = some (Api.typename (⟨"TypeB", "TypeB", [], ()⟩ : Api Unit)) ∧
      Chain exScenario1 l ∧
      ∀ u ∈ l, ∃ b ∈ filter_apis_by_following_edges_from_allowlist exScenario1 allowTypeA,
        b.typename = u :=
  claim_C3 exScenario1 allowTypeA ⟨"TypeB", "TypeB", [], ()⟩
    (by rw [exScenario1_eval]; decide)

/-- Claim C4: no-fabrication — the output is a concatenation of pairwise
distinct input identity groups (so no node is created, split, duplicated or
mutated, each group appears at most once and nodes keep their exact input
content), and the output has at most as many nodes as the input. -/
theorem claim_C4 {T : Type} (apis : List (Api T)) (allow : String → Bool) :
    ∃ keys : List String, keys.Nodup ∧
      filter_apis_by_following_edges_from_allowlist apis allow
        = keys.flatMap (fun k => groupOf apis k) ∧
      (filter_apis_by_following_edges_from_allowlist apis allow).length ≤ apis.length := by
  refine ⟨reachedKeys apis allow, reachedKeys_nodup apis allow,
    filter_eq_flatMap apis allow, ?_⟩
  rw [filter_eq_flatMap]
  exact length_flatMap_groupOf apis _ (reachedKeys_nodup apis allow)

/-- Claim C5: termination — for every finite input and allowlist, including
cyclic or self-referential dependency edges, the traversal finishes: the
fueled loop with one fuel unit per initial queue entry plus one per stored
dependency edge already reaches the result (never exhausting its fuel), and
the spec's self-referential example terminates with output `[Fn, StructX]`. -/
theorem claim_C5 :
    (∀ (T : Type) (apis : List (Api T)) (allow : String → Bool),
        loopFuel ((seedNames apis allow).length + totalDeps (buildIndex apis))
          (seedNames apis allow) (buildIndex apis) [] []
          = some (filter_apis_by_following_edges_from_allowlist apis allow)) ∧
      filter_apis_by_following_edges_from_allowlist exCyclic allowFn
        = [⟨"Fn", "Fn", ["StructX"], ()⟩, ⟨"StructX", "StructX", ["StructX"], ()⟩] :=
  ⟨fun _ apis allow => loopFuel_spec (seedNames apis allow) (buildIndex apis) [] [],
    exCyclic_eval⟩

/-- Claim C8: totality — the filter never fails: an input with an allowlist
matching nothing yields the empty output, the empty input yields the empty
output, and a dangling dependency edge to an unknown identity is skipped
silently, as in the spec's example where the output is just `[X]`. -/
theorem claim_C8 :
    (∀ (T : Type) (apis : List (Api T)) (allow : String → Bool),
        (∀ a ∈ apis, allow a.typenameForAllowlist = false) →
          filter_apis_by_following_edges_from_allowlist apis allow = []) ∧
      (∀ (T : Type) (allow : String → Bool),
        filter_apis_by_following_edges_from_allowlist ([] : List (Api T)) allow = []) ∧
      filter_apis_by_following_edges_from_allowlist exUnknown allowX
        = [⟨"X", "X", ["Unknown"], ()⟩] := by
  refine ⟨?_, ?_, exUnknown_eval⟩
  · intro T apis allow h
    have hseed : seedNames apis allow = [] := by
      rw [seedNames]
      rw [List.filter_eq_nil_iff.mpr ?_]
      · rfl
      · intro a ha
        simp [h a ha]
    rw [filter_apis_by_following_edges_from_allowlist, hseed, loop_nil]
  · intro T allow
    rw [filter_apis_by_following_edges_from_allowlist]
    have h1 : seedNames ([] : List (Api T)) allow = [] := rfl
    have h2 : buildIndex ([] : List (Api T)) = [] := rfl
    rw [h1, h2, loop_nil]

theorem claim_C8_witness :
    filter_apis_by_following_edges_from_allowlist exScenario1 (fun _ => false) = [] :=
  claim_C8.1 Unit exScenario1 (fun _ => false) (fun _ _ => rfl)

/-- Claim C9: group-as-unit traversal — all nodes sharing an identity form
one unit: if any node of a group is in the output, every input node with the
same identity is in the output as well; in the spec's shared-identity
example both `Z` nodes survive together with the resolvable dependency
`W`. -/
theorem claim_C9 {T : Type} (apis : List (Api T)) (allow : String → Bool) :
    (∀ a b : Api T, a ∈ filter_apis_by_following_edges_from_allowlist apis allow →
        b ∈ apis → b.typename = a.typename →
        b ∈ filter_apis_by_following_edges_from_allowlist apis allow) ∧
      filter_apis_by_following_edges_from_allowlist exShared allowZ
        = [⟨"Z", "Z", ["W"], ()⟩, ⟨"Z", "Z", [], ()⟩, ⟨"W", "W", [], ()⟩] := by
  refine ⟨?_, exShared_eval⟩
  intro a b ha hb hbt
  rw [mem_filter_iff] at ha ⊢
  exact ⟨hb, hbt ▸ ha.2⟩

theorem claim_C9_witness :
    (⟨"Z", "Z", [], ()⟩ : Api Unit) ∈
      filter_apis_by_following_edges_from_allowlist exShared allowZ :=
  (claim_C9 exShared allowZ).1 ⟨"Z", "Z", ["W"], ()⟩ ⟨"Z", "Z", [], ()⟩
    (by rw [exShared_eval]; decide) (by decide) (by decide)

/-- Claim C6: idempotence-on-closure — re-running the filter on its own
output with the same allowlist oracle returns the output unchanged, order
included: the filter is a fixed point on its image.  The allowlist test is
applied to each node's stored allowlist identity, so it is automatically
based on the nodes still present. -/
theorem claim_C6 {T : Type} (apis : List (Api T)) (allow : String → Bool) :
    filter_apis_by_following_edges_from_allowlist
        (filter_apis_by_following_edges_from_allowlist apis allow) allow
      = filter_apis_by_following_edges_from_allowlist apis allow := by
  have h1 : filter_apis_by_following_edges_from_allowlist
      (filter_apis_by_following_edges_from_allowlist apis allow) allow
      = (loopK (seedNames (filter_apis_by_following_edges_from_allowlist apis allow)
          allow) (buildIndex (filter_apis_by_following_edges_from_allowlist apis allow))
            []).flatMap (fun p => p.2) := by
    rw [filter_apis_by_following_edges_from_allowlist, loop_eq_loopK]
  rw [h1, ← loopK_output_index apis allow,
    loopK_dedup_congr
      (seedNames (filter_apis_by_following_edges_from_allowlist apis allow) allow)
      (seedNames apis allow) (buildIndex apis) [] (seeds_output_dedup apis allow)]
  have h2 : filter_apis_by_following_edges_from_allowlist apis allow
      = (loopK (seedNames apis allow) (buildIndex apis) []).flatMap (fun p => p.2) := by
    rw [filter_apis_by_following_edges_from_allowlist, loop_eq_loopK]
  rw [← h2]

/-- Claim C7: determinism — identical inputs yield identical, identically
ordered outputs: the pass is a pure function in this embedding, and its
result is moreover insensitive to the storage order of the hash-map buckets,
which are only ever queried by key, never iterated: running the traversal on
any permutation of the built index yields the very same output. -/
theorem claim_C7 {T : Type} (apis : List (Api T)) (allow : String → Bool)
    (index2 : Index T) (hperm : (buildIndex apis).Perm index2) :
    loop (seedNames apis allow) index2 [] []
      = filter_apis_by_following_edges_from_allowlist apis allow := by
  rw [filter_apis_by_following_edges_from_allowlist]
  exact (loop_perm (seedNames apis allow) (buildIndex apis) index2 [] []
    hperm (nodup_buildIndex apis)).symm

theorem claim_C7_witness :
    loop (seedNames exScenario1 allowTypeA)
      [("TypeC", [⟨"TypeC", "TypeC", [], ()⟩]),
       ("TypeB", [⟨"TypeB", "TypeB", [], ()⟩]),
       ("TypeA", [⟨"TypeA", "TypeA", ["TypeB"], ()⟩])] [] []
      = filter_apis_by_following_edges_from_allowlist exScenario1 allowTypeA :=
  claim_C7 exScenario1 allowTypeA _ (by decide)

/-- Claim C10 counterexample: as stated, the claim predicts that the seed
groups appear in order of the groups' first occurrence in the input, which
for `exOrder` (whose `X` group occurs at position 0, before the `Y` group at
position 1, while the first allowlisted node is the `Y` node) would be the
`X` group followed by the `Y` group; the code instead outputs the `Y` group
first, because seeds are enqueued in the order of the allowlisted nodes. -/
theorem claim_C10_counterexample :
    filter_apis_by_following_edges_from_allowlist exOrder allowYX
        = [⟨"Y", "Y", [], ()⟩, ⟨"X", "NotAllowed", [], ()⟩, ⟨"X", "X", [], ()⟩] ∧
      filter_apis_by_following_edges_from_allowlist exOrder allowYX
        ≠ [⟨"X", "NotAllowed", [], ()⟩, ⟨"X", "X", [], ()⟩, ⟨"Y", "Y", [], ()⟩] := by
  refine ⟨exOrder_eval, ?_⟩
  rw [exOrder_eval]
  decide

/-- Claim C10 (amended): the output always consists of the seed groups
first, ordered by the first occurrence in the input of an allowlisted node
of the group, followed by the dependency-only groups discovered by the
breadth-first phase, none of which is keyed by the identity of any
allowlisted node. -/
theorem claim_C10 {T : Type} (apis : List (Api T)) (allow : String → Bool) :
    filter_apis_by_following_edges_from_allowlist apis allow
      = (dedupFrom [] (seedNames apis allow)).flatMap (fun k => groupOf apis k)
        ++ (depPairs apis allow).flatMap (fun p => p.2)
      ∧ ∀ p ∈ depPairs apis allow, p.2 = groupOf apis p.1 ∧
          p.1 ∉ seedNames apis allow := by
  constructor
  · rw [filter_eq_flatMap, reachedKeys_structure, List.flatMap_append]
    refine congrArg (_ ++ ·) ?_
    rw [← flatMap_snd_eq_keys (depPairs apis allow) (fun k => groupOf apis k)
      (fun p hp => (depPairs_groups apis allow p hp).1)]
  · intro p hp
    exact ⟨(depPairs_groups apis allow p hp).1, depPairs_not_seed apis allow p hp⟩

theorem claim_C10_witness :
    filter_apis_by_following_edges_from_allowlist exOrder allowYX
      = (dedupFrom [] (seedNames exOrder allowYX)).flatMap (fun k => groupOf exOrder k)
        ++ (depPairs exOrder allowYX).flatMap (fun p => p.2)
      ∧ ∀ p ∈ depPairs exOrder allowYX, p.2 = groupOf exOrder p.1 ∧
          p.1 ∉ seedNames exOrder allowYX :=
  claim_C10 exOrder allowYX

end Gc
